import Mathlib

/-!
Verification of the component-discovery subsystem of the codebase-evaluator
repository (`src/component_discovery.py`), against its natural-language
specification.  Python data is shallowly embedded: JSON documents become the
`Json` inductive, Python dicts become insertion-ordered association lists,
Python sets become insertion-ordered duplicate-free lists (compared up to
membership where iteration order is irrelevant), and fallible code returns
`Option`/`Except`.  File modification times are modelled as naturals, and the
SHA-256 digest of `ComponentCache._get_cache_key` is abstracted as an
arbitrary injective function over the exact string the Python code feeds to
the hasher.
-/

namespace CompDisc

/-- Embedding of Python/JSON values as manipulated by `json.load`/`json.dump`
in `component_discovery.py`.  Numbers are modelled as integers (the cache
schema only ever stores counters and flags). -/
inductive Json where
  | null : Json
  | bool (b : Bool) : Json
  | num (n : Int) : Json
  | str (s : String) : Json
  | arr (elems : List Json) : Json
  | obj (fields : List (String × Json)) : Json
deriving Repr

mutual

/-- Decidable equality on embedded JSON values. -/
def Json.decEq : (a b : Json) → Decidable (a = b)
  | .null, b =>
    match b with
    | .null => .isTrue rfl
    | .bool _ => .isFalse nofun
    | .num _ => .isFalse nofun
    | .str _ => .isFalse nofun
    | .arr _ => .isFalse nofun
    | .obj _ => .isFalse nofun
  | .bool x, b =>
    match b with
    | .null => .isFalse nofun
    | .bool y =>
      if h : x = y then .isTrue (h ▸ rfl)
      else .isFalse (fun he => h (by injection he))
    | .num _ => .isFalse nofun
    | .str _ => .isFalse nofun
    | .arr _ => .isFalse nofun
    | .obj _ => .isFalse nofun
  | .num x, b =>
    match b with
    | .null => .isFalse nofun
    | .bool _ => .isFalse nofun
    | .num y =>
      if h : x = y then .isTrue (h ▸ rfl)
      else .isFalse (fun he => h (by injection he))
    | .str _ => .isFalse nofun
    | .arr _ => .isFalse nofun
    | .obj _ => .isFalse nofun
  | .str x, b =>
    match b with
    | .null => .isFalse nofun
    | .bool _ => .isFalse nofun
    | .num _ => .isFalse nofun
    | .str y =>
      if h : x = y then .isTrue (h ▸ rfl)
      else .isFalse (fun he => h (by injection he))
    | .arr _ => .isFalse nofun
    | .obj _ => .isFalse nofun
  | .arr x, b =>
    match b with
    | .null => .isFalse nofun
    | .bool _ => .isFalse nofun
    | .num _ => .isFalse nofun
    | .str _ => .isFalse nofun
    | .arr y =>
      match Json.decEqList x y with
      | .isTrue h => .isTrue (h ▸ rfl)
      | .isFalse h => .isFalse (fun he => h (by injection he))
    | .obj _ => .isFalse nofun
  | .obj x, b =>
    match b with
    | .null => .isFalse nofun
    | .bool _ => .isFalse nofun
    | .num _ => .isFalse nofun
    | .str _ => .isFalse nofun
    | .arr _ => .isFalse nofun
    | .obj y =>
      match Json.decEqFields x y with
      | .isTrue h => .isTrue (h ▸ rfl)
      | .isFalse h => .isFalse (fun he => h (by injection he))

/-- Decidable equality on lists of embedded JSON values. -/
def Json.decEqList : (a b : List Json) → Decidable (a = b)
  | [], [] => .isTrue rfl
  | [], _ :: _ => .isFalse nofun
  | _ :: _, [] => .isFalse nofun
  | x :: xs, y :: ys =>
    match Json.decEq x y with
    | .isTrue h1 =>
      match Json.decEqList xs ys with
      | .isTrue h2 => .isTrue (h1 ▸ h2 ▸ rfl)
      | .isFalse h2 => .isFalse (fun he => h2 (by injection he))
    | .isFalse h1 => .isFalse (fun he => h1 (by injection he))

/-- Decidable equality on JSON object field lists. -/
def Json.decEqFields : (a b : List (String × Json)) → Decidable (a = b)
  | [], [] => .isTrue rfl
  | [], _ :: _ => .isFalse nofun
  | _ :: _, [] => .isFalse nofun
  | (k, v) :: xs, (k2, v2) :: ys =>
    if hk : k = k2 then
      match Json.decEq v v2 with
      | .isTrue hv =>
        match Json.decEqFields xs ys with
        | .isTrue h2 => .isTrue (hk ▸ hv ▸ h2 ▸ rfl)
        | .isFalse h2 => .isFalse (fun he => h2 (by injection he))
      | .isFalse hv => .isFalse (fun he => hv (by injection he with h1 h2; injection h1))
    else .isFalse (fun he => hk (by injection he with h1 h2; injection h1))

end

instance : DecidableEq Json := Json.decEq

/-- Python `dict.get(k)` on a JSON object: first binding of the key, if any. -/
def Json.lookup (fields : List (String × Json)) (k : String) : Option Json :=
  match fields.find? (fun kv => kv.1 = k) with
  | some kv => some kv.2
  | none => none

/-! ## Insertion-ordered dictionaries and sets

Python dicts preserve insertion order; `defaultdict(set)` additionally
inserts an empty set on a read of a missing key.  We model a dict of sets as
an association list, a set as a duplicate-free list in insertion order, and
keep the side-effecting `__getitem__` explicit. -/

variable {α : Type} [DecidableEq α]

/-- Keys of an association list, in insertion order. -/
def dictKeys (l : List (α × List α)) : List α := l.map (fun kv => kv.1)

/-- Python `d.get(k, set())`: look a key up without inserting it. -/
def dictGet (l : List (α × List α)) (k : α) : List α :=
  match l.find? (fun kv => kv.1 = k) with
  | some kv => kv.2
  | none => []

/-- `defaultdict(set).__getitem__`: return the stored set, inserting an empty
set for a missing key (the side effect that matters in `has_cycles`). -/
def dictGetD (l : List (α × List α)) (k : α) : List α × List (α × List α) :=
  match l.find? (fun kv => kv.1 = k) with
  | some kv => (kv.2, l)
  | none => ([], l ++ [(k, [])])

/-- Python `set.add`: append the element unless already present. -/
def setAdd (s : List α) (x : α) : List α := if x ∈ s then s else s ++ [x]

/-- `defaultdict(set)[k].add(v)`: add `v` to the set at `k`, updating an
existing entry in place (keys are unique, so the first hit is the entry) or
appending a fresh one. -/
def dictAdd (l : List (α × List α)) (k : α) (v : α) : List (α × List α) :=
  match l with
  | [] => [(k, [v])]
  | (k0, v0) :: rest =>
    if k0 = k then (k0, setAdd v0 v) :: rest else (k0, v0) :: dictAdd rest k v

/-- `d[k] = set()`: plain dict assignment, overwriting an existing entry in
place or appending a fresh one. -/
def dictSetEmpty (l : List (α × List α)) (k : α) : List (α × List α) :=
  match l with
  | [] => [(k, [])]
  | (k0, v0) :: rest =>
    if k0 = k then (k0, ([] : List α)) :: rest else (k0, v0) :: dictSetEmpty rest k

/-! ## `DependencyGraph` (`component_discovery.py` lines 62-110) -/

/-- The adjacency state of `DependencyGraph`: `_forward` and `_reverse` are
`defaultdict(set)` instances, embedded as insertion-ordered association
lists. -/
structure DepGraph (α : Type) where
  fwd : List (α × List α)
  rev : List (α × List α)
deriving Repr

/-- `DependencyGraph.__init__`. -/
def DepGraph.empty : DepGraph α := ⟨[], []⟩

/-- `DependencyGraph.add_node`: if the component is missing from `_forward`,
assign empty sets in `_forward` and `_reverse` (the latter is a plain
assignment and so overwrites any dependents already recorded there). -/
def DepGraph.addNode (g : DepGraph α) (c : α) : DepGraph α :=
  if c ∈ dictKeys g.fwd then g
  else ⟨g.fwd ++ [(c, [])], dictSetEmpty g.rev c⟩

/-- `DependencyGraph.add_edge`: `_forward[from].add(to)` and
`_reverse[to].add(from)` on the two defaultdicts. -/
def DepGraph.addEdge (g : DepGraph α) (a b : α) : DepGraph α :=
  ⟨dictAdd g.fwd a b, dictAdd g.rev b a⟩

/-- `DependencyGraph.get_dependencies` (`self._forward.get(component, set())`). -/
def DepGraph.getDependencies (g : DepGraph α) (c : α) : List α := dictGet g.fwd c

/-- `DependencyGraph.get_dependents` (`self._reverse.get(component, set())`). -/
def DepGraph.getDependents (g : DepGraph α) (c : α) : List α := dictGet g.rev c

/-- The edge relation of a graph state: `b` is recorded as a dependency of
`a` in `_forward`. -/
def DepGraph.E (g : DepGraph α) (a b : α) : Prop := b ∈ dictGet g.fwd a

instance (g : DepGraph α) (a b : α) : Decidable (g.E a b) := by
  unfold DepGraph.E; infer_instance

/-! ### `has_cycles` (lines 89-110)

The Python method runs `any(visit(c) for c in self._forward)` with a nested
recursive `visit` that reads `self._forward[component]` — a `defaultdict`
read that **inserts** a fresh key whenever `component` has no forward entry.
CPython dict iterators raise `RuntimeError: dictionary changed size during
iteration` at the next fetch after such an insertion.  The embedding keeps
the mutable forward dict in an explicit DFS state, uses fuel for the
recursion (fuel exhaustion is `none` and is proved unreachable for the fuel
`has_cycles` supplies), and returns `Except.error ()` for the
`RuntimeError`. -/

/-- Mutable state of the `visit` closure: the enclosing object's `_forward`
dict plus the `visited` and `path` sets. -/
structure DfsSt (α : Type) where
  fwd : List (α × List α)
  visited : List α
  path : List α
deriving Repr

/-- The recursive `visit(component)` closure of `has_cycles`.  The
`for dep in self._forward[component]` loop (which short-circuits on the
first `True`) is expressed as a fold whose accumulator carries the loop's
outcome so far; fuel decreases structurally at each recursive call. -/
def visit : Nat → α → DfsSt α → Option (Bool × DfsSt α)
  | 0, _, _ => none
  | fuel + 1, c, st =>
    if c ∈ st.path then some (true, st)
    else if c ∈ st.visited then some (false, st)
    else
      match (dictGetD st.fwd c).1.foldl
          (fun acc d =>
            match acc with
            | none => none
            | some (true, s) => some (true, s)
            | some (false, s) => visit fuel d s)
          (some (false, ⟨(dictGetD st.fwd c).2, c :: st.visited, c :: st.path⟩)) with
      | none => none
      | some (true, st3) => some (true, st3)
      | some (false, st3) => some (false, ⟨st3.fwd, st3.visited, st3.path.erase c⟩)

/-- One step of the dependency loop inside `visit`. -/
def visitStep (fuel : Nat) (acc : Option (Bool × DfsSt α)) (d : α) :
    Option (Bool × DfsSt α) :=
  match acc with
  | none => none
  | some (true, s) => some (true, s)
  | some (false, s) => visit fuel d s

/-- The dependency loop of `visit` as a standalone function (definitionally
the fold inlined in `visit`). -/
def visitFold (fuel : Nat) (ds : List α) (st : DfsSt α) : Option (Bool × DfsSt α) :=
  ds.foldl (visitStep fuel) (some (false, st))

/-- The `any(visit(component) for component in self._forward)` driver.  A
CPython dict iterator checks, before every fetch (including the final
exhaustion check), that the dict still has the size it had when the iterator
was created, and raises `RuntimeError` otherwise; `initSize` records that
creation-time size. -/
def anyVisit : Nat → Nat → List α → DfsSt α → Option (Except Unit Bool)
  | _, initSize, [], st =>
    if st.fwd.length = initSize then some (Except.ok false) else some (Except.error ())
  | fuel, initSize, k :: ks, st =>
    if st.fwd.length = initSize then
      match visit fuel k st with
      | none => none
      | some (true, _) => some (Except.ok true)
      | some (false, st1) => anyVisit fuel initSize ks st1
    else some (Except.error ())

/-- Every node the traversal can ever touch: the keys of `_forward` together
with all recorded dependency targets. -/
def nodePool (g : DepGraph α) : List α :=
  (dictKeys g.fwd ++ (g.fwd.map (fun kv => kv.2)).flatten).dedup

/-- `DependencyGraph.has_cycles`.  `none` models fuel exhaustion (proved
impossible below), `some (Except.error ())` the `RuntimeError` raised when a
`defaultdict` read inserts a key while the `any` generator is iterating the
dict, and `some (Except.ok b)` a normal boolean return. -/
def DepGraph.hasCycles (g : DepGraph α) : Option (Except Unit Bool) :=
  anyVisit ((nodePool g).length + 1) g.fwd.length (dictKeys g.fwd) ⟨g.fwd, [], []⟩

/-- `TargetsIn f`: every dependency target recorded in the forward dict is
itself a key of the forward dict.  This is what `add_node`-before-`add_edge`
establishes, and what rules the `defaultdict` insertion out of `visit`. -/
def TargetsIn (f : List (α × List α)) : Prop :=
  ∀ kv ∈ f, ∀ t ∈ kv.2, t ∈ dictKeys f

instance (f : List (α × List α)) : Decidable (TargetsIn f) := by
  unfold TargetsIn; infer_instance

/-- A graph is closed when every recorded edge target has a forward entry. -/
def DepGraph.Closed (g : DepGraph α) : Prop := TargetsIn g.fwd

instance (g : DepGraph α) : Decidable g.Closed := by
  unfold DepGraph.Closed; infer_instance

/-- The nodes a state considers "done": fully visited and no longer on the
current path. -/
def doneNode (st : DfsSt α) (u : α) : Prop := u ∈ st.visited ∧ u ∉ st.path

/-- The edge relation recorded in a forward dict. -/
def edgeRel (f : List (α × List α)) (a b : α) : Prop := b ∈ dictGet f a

/-- DFS fuel measure: how many pool nodes are still unvisited. -/
def remaining (P : List α) (st : DfsSt α) : Nat :=
  (P.toFinset \ st.visited.toFinset).card

/-- The completeness invariant of the traversal: the done set is closed
under recorded edges and contains no node that lies on a cycle. -/
def dfsInv (f0 : List (α × List α)) (st : DfsSt α) : Prop :=
  (∀ u, doneNode st u → ∀ w, edgeRel f0 u w → doneNode st w) ∧
  (∀ u, doneNode st u → ¬ Relation.TransGen (edgeRel f0) u u)

/-! ### Concrete graphs from the specification's test properties -/

/-- A 2-node mutual reference, nodes added before edges as
`discover_components` does. -/
def graphTwoMutual : DepGraph String :=
  ((((DepGraph.empty.addNode "a").addNode "b").addEdge "a" "b").addEdge "b" "a")

/-- A 3-node directed cycle. -/
def graphThreeCycle : DepGraph String :=
  ((((((DepGraph.empty.addNode "a").addNode "b").addNode "c").addEdge
    "a" "b").addEdge "b" "c").addEdge "c" "a")

/-- An acyclic diamond. -/
def graphDiamond : DepGraph String :=
  (((((((DepGraph.empty.addNode "a").addNode "b").addNode "c").addNode
    "d").addEdge "a" "b").addEdge "a" "c").addEdge "b" "d").addEdge "c" "d"

/-- Two disconnected edges inserted by `add_edge` alone, without `add_node`:
the edge targets never receive a `_forward` entry. -/
def graphEdgesOnly : DepGraph String :=
  (DepGraph.empty.addEdge "a" "b").addEdge "c" "d"

/-! ### Call sequences against the `DependencyGraph` API (claim C4) -/

/-- One call against the public mutation API of `DependencyGraph`. -/
inductive GraphOp (α : Type) where
  | node (c : α) : GraphOp α
  | edge (a b : α) : GraphOp α
deriving Repr

/-- Execute one API call. -/
def applyOp (g : DepGraph α) : GraphOp α → DepGraph α
  | .node c => g.addNode c
  | .edge a b => g.addEdge a b

/-- Execute a sequence of API calls on a fresh graph. -/
def applyOps (ops : List (GraphOp α)) : DepGraph α :=
  ops.foldl applyOp DepGraph.empty

/-- The discipline every call site in the repository follows: each
`add_edge` call's endpoints were passed to `add_node` earlier in the
sequence (`declared` accumulates the nodes added so far). -/
def nodesFirst (declared : List α) : List (GraphOp α) → Prop
  | [] => True
  | .node c :: rest => nodesFirst (c :: declared) rest
  | .edge a b :: rest => a ∈ declared ∧ b ∈ declared ∧ nodesFirst declared rest

/-- Decidability of the `nodesFirst` discipline. -/
def nodesFirstDec (d : List α) : (ops : List (GraphOp α)) → Decidable (nodesFirst d ops)
  | [] => .isTrue trivial
  | .node c :: rest => nodesFirstDec (c :: d) rest
  | .edge a b :: rest =>
    have : Decidable (nodesFirst d rest) := nodesFirstDec d rest
    inferInstanceAs (Decidable (a ∈ d ∧ b ∈ d ∧ nodesFirst d rest))

instance (d : List α) (ops : List (GraphOp α)) : Decidable (nodesFirst d ops) :=
  nodesFirstDec d ops

/-- Both forward and reverse adjacency record exactly the same edge pairs. -/
def graphLockstep (g : DepGraph α) : Prop :=
  ∀ a b, b ∈ dictGet g.fwd a ↔ a ∈ dictGet g.rev b

/-- `add_edge("a","b")` then `add_node("b")`: because `"b"` has no forward
entry yet, `add_node` runs its body and its `self._reverse[component] = set()`
assignment wipes the dependents already recorded for `"b"`. -/
def graphWipe : DepGraph String :=
  (DepGraph.empty.addEdge "a" "b").addNode "b"

/-! ### Python string primitives

Lean's built-in `String.startsWith`/`String.endsWith` do not reduce inside
the kernel, so the Python string operations are embedded directly over the
underlying character lists. -/

/-- Python `s.startswith(pre)`. -/
def pyStartswith (s pre : String) : Bool := pre.data.isPrefixOf s.data

/-- Python `s.endswith(suf)`. -/
def pyEndswith (s suf : String) : Bool := suf.data.isSuffixOf s.data

/-! ## `Component` (`component_discovery.py` lines 31-59)

`name`, `package` and `path` are validated by `__post_init__` and are
strings in every component that can exist; the remaining fields are stored
without any type check (`ComponentCache.load` will happily put arbitrary
JSON in them), so they are embedded as `Json`.  `dependencies` is a Python
set, embedded as a duplicate-free list in some iteration order. -/
structure Component where
  name : String
  package : String
  path : String
  source_files : Json
  dependencies : List Json
  is_test : Json
  metadata : Json
deriving Repr, DecidableEq

/-! ### Edge resolution (`discover_components` lines 415-421) -/

/-- `for other in components.values(): if other.package.startswith(dep):
graph.add_edge(component.name, other.name)` for one raw dependency string.
A non-string dependency makes `startswith` raise `TypeError`, modelled as
`none`. -/
def resolveDep (comps : List Component) (cname : String) (dep : Json)
    (g : DepGraph String) : Option (DepGraph String) :=
  match dep with
  | .str s =>
    some (comps.foldl
      (fun g2 other =>
        if pyStartswith other.package s then g2.addEdge cname other.name else g2)
      g)
  | _ => none

/-- The `for dep in component.dependencies` loop. -/
def resolveComp (comps : List Component) (c : Component) (g : DepGraph String) :
    Option (DepGraph String) :=
  c.dependencies.foldlM (fun g2 dep => resolveDep comps c.name dep g2) g

/-- The whole edge-resolution pass of `discover_components`: for every
component, for every raw dependency, add an edge to every component whose
package starts with the dependency string — with no self-exclusion. -/
def resolveEdges (comps : List Component) (g : DepGraph String) :
    Option (DepGraph String) :=
  comps.foldlM (fun g2 c => resolveComp comps c g2) g

/-- A component whose dependency set names its own package, as happens when
one of its files imports a sibling type from the same package. -/
def compSelf : Component :=
  ⟨"b", "a.b", "/repo/src/main/java/a/b", Json.arr [], [Json.str "a.b"],
    Json.bool false, Json.obj []⟩

/-- The `com.acme.shipping` component of the specification's example. -/
def compShipping : Component :=
  ⟨"shipping", "com.acme.shipping", "/repo/src/main/java/com/acme/shipping",
    Json.arr [], [Json.str "com.acme.shipping"], Json.bool false, Json.obj []⟩

/-- The `com.acme.shipping.core` component of the specification's example. -/
def compShippingCore : Component :=
  ⟨"core", "com.acme.shipping.core", "/repo/src/main/java/com/acme/shipping/core",
    Json.arr [], [], Json.bool false, Json.obj []⟩

/-! ## `ComponentCache._cleanup_old_cache` (lines 146-166)

The method stats every `components_*.json` file in the cache directory,
giving a list of (path, size, mtime) triples in directory order; if the
total size exceeds the byte budget it sorts them by modification time
(Python's sort is stable; any stable sort produces the same list, so the
embedding uses insertion sort) and unlinks files from the oldest end until
the running total is within budget. -/

/-- Sort cache files by modification time, stably. -/
def sortByMtime (files : List (String × Nat × Nat)) : List (String × Nat × Nat) :=
  files.insertionSort (fun f1 f2 => f1.2.2 ≤ f2.2.2)

/-- Total size of a list of cache files. -/
def totalSize (files : List (String × Nat × Nat)) : Nat :=
  (files.map (fun f => f.2.1)).sum

/-- The `for file, size, _ in cache_files: if total_size <= max: break;
file.unlink(); total_size -= size` loop, returning the unlinked files in
removal order. -/
def evictLoop (maxSize : Nat) : List (String × Nat × Nat) → Nat → List (String × Nat × Nat)
  | [], _ => []
  | f :: fs, total =>
    if total ≤ maxSize then [] else f :: evictLoop maxSize fs (total - f.2.1)

/-- `_cleanup_old_cache`: the list of cache files removed (empty when the
total size is within the budget).  `save` invokes this before computing the
cache key and writing the new entry. -/
def cleanupOldCache (files : List (String × Nat × Nat)) (maxSize : Nat) :
    List (String × Nat × Nat) :=
  if totalSize files > maxSize then
    evictLoop maxSize (sortByMtime files) (totalSize files)
  else []

instance : IsTotal (String × Nat × Nat) (fun f1 f2 => f1.2.2 ≤ f2.2.2) :=
  ⟨fun a b => Nat.le_total a.2.2 b.2.2⟩

instance : IsTrans (String × Nat × Nat) (fun f1 f2 => f1.2.2 ≤ f2.2.2) :=
  ⟨fun _ _ _ hab hbc => Nat.le_trans hab hbc⟩

/-- A concrete cache directory: 150 bytes of cache files against a
100-byte budget. -/
def evFiles : List (String × Nat × Nat) :=
  [("new", 50, 20), ("old", 60, 10), ("mid", 40, 15)]

/-! ## `JavaFileAnalyzer` (lines 264-297)

`find_dependencies` runs `re.finditer` with the pattern
`import\s+([\w.]+)(?:\s*\*)?;` over the file content.  The scanner below
embeds that regex directly: at each position it tries the literal `import`,
one-or-more whitespace, a maximal (greedy) run of word/dot characters — no
shorter run can ever satisfy the remainder of the pattern, because the
character after a shorter run is again a word/dot character, which matches
neither `\s*\*` nor `;` — then either `\s*\*;` or `;`.  ASCII word
characters model `\w`. -/

/-- The `[\w.]` character class (ASCII). -/
def isWordDot (c : Char) : Bool := c.isAlphanum || c = '_' || c = '.'

/-- The `\s` character class (ASCII). -/
def isPySpace (c : Char) : Bool :=
  c = ' ' || c = '\t' || c = '\n' || c = '\r' || c = '\x0b' || c = '\x0c'

/-- Try to match `import\s+([\w.]+)(?:\s*\*)?;` at the head of `l`,
returning the captured group and the remainder after the match. -/
def matchImport (l : List Char) : Option (List Char × List Char) :=
  if ("import".data).isPrefixOf l then
    let l1 := l.drop 6
    let ws := l1.takeWhile isPySpace
    if ws.isEmpty then none
    else
      let l2 := l1.dropWhile isPySpace
      let cap := l2.takeWhile isWordDot
      if cap.isEmpty then none
      else
        let l3 := l2.dropWhile isWordDot
        match l3.dropWhile isPySpace with
        | '*' :: ';' :: rest => some (cap, rest)
        | _ =>
          match l3 with
          | ';' :: rest => some (cap, rest)
          | _ => none
  else none

/-- The `re.finditer` scan: try each position left to right, resuming after
the end of each match.  The fuel argument starts at the list length; every
step consumes at least one character, so it never runs out. -/
def scanGo : Nat → List Char → List (List Char)
  | 0, _ => []
  | _, [] => []
  | fuel + 1, c :: cs =>
    match matchImport (c :: cs) with
    | some (cap, rest) => cap :: scanGo fuel rest
    | none => scanGo fuel cs

/-- All `import` statements captured in a file content. -/
def scanImports (l : List Char) : List (List Char) := scanGo l.length l

/-- Python `s.split('.')` helper over characters. -/
def splitDotAux : List Char → List Char → List (List Char)
  | [], acc => [acc.reverse]
  | c :: cs, acc =>
    if c = '.' then acc.reverse :: splitDotAux cs [] else splitDotAux cs (c :: acc)

/-- Python `s.split('.')`. -/
def pySplitDot (s : String) : List String :=
  (splitDotAux s.data []).map (fun l => String.mk l)

/-- Python `'.'.join(parts)`. -/
def pyJoinDot : List String → String
  | [] => ""
  | [s] => s
  | s :: rest => s ++ "." ++ pyJoinDot rest

/-- The body of the `for match in imports` loop of `find_dependencies`:
`parts = package.split('.'); if len(parts) > 1:` record
`'.'.join(parts[:-1])`, else record nothing. -/
def depOfImport (cap : List Char) : Option String :=
  let parts := pySplitDot (String.mk cap)
  if parts.length > 1 then some (pyJoinDot parts.dropLast) else none

/-- `JavaFileAnalyzer.find_dependencies`: the recorded dependency set, in
insertion order. -/
def findDependencies (content : String) : List String :=
  (scanImports content.data).foldl
    (fun deps cap =>
      match depOfImport cap with
      | some v => setAdd deps v
      | none => deps)
    []

/-- Try to match `package\s+([\w.]+);` at the head of `l` (same greedy-run
argument as for `matchImport`), returning the captured group. -/
def matchPackage (l : List Char) : Option (List Char) :=
  if ("package".data).isPrefixOf l then
    let l1 := l.drop 7
    if (l1.takeWhile isPySpace).isEmpty then none
    else
      let l2 := l1.dropWhile isPySpace
      let cap := l2.takeWhile isWordDot
      if cap.isEmpty then none
      else
        match l2.dropWhile isWordDot with
        | ';' :: _ => some cap
        | _ => none
  else none

/-- The `re.search` scan of `extract_package`: first matching position. -/
def searchPackage : Nat → List Char → Option (List Char)
  | 0, _ => none
  | _, [] => none
  | fuel + 1, c :: cs =>
    match matchPackage (c :: cs) with
    | some cap => some cap
    | none => searchPackage fuel cs

/-- `JavaFileAnalyzer.extract_package`. -/
def extractPackage (content : String) : Option String :=
  (searchPackage content.data.length content.data).map (fun cap => String.mk cap)

/-! ### `extract_metadata` (lines 289-297) -/

/-- The `\w` character class (ASCII, no dot). -/
def isWordCh (c : Char) : Bool := c.isAlphanum || c = '_'

/-- Generic left-to-right scan carrying the previous character, to decide
`re.search` of a boundary-anchored pattern. -/
def scanBool (p : Option Char → List Char → Bool) : Option Char → List Char → Bool
  | _, [] => false
  | prev, c :: cs => p prev (c :: cs) || scanBool p (some c) cs

/-- Match `interface\s+\w+` at the head of `l`. -/
def interfaceAt (l : List Char) : Bool :=
  ("interface".data).isPrefixOf l &&
    (let l1 := l.drop 9
     !(l1.takeWhile isPySpace).isEmpty &&
       (match l1.dropWhile isPySpace with
        | c :: _ => isWordCh c
        | [] => false))

/-- Match `abstract\s+class\s+\w+` at the head of `l`. -/
def abstractAt (l : List Char) : Bool :=
  ("abstract".data).isPrefixOf l &&
    (let l1 := l.drop 8
     !(l1.takeWhile isPySpace).isEmpty &&
       (let l2 := l1.dropWhile isPySpace
        ("class".data).isPrefixOf l2 &&
          (let l3 := l2.drop 5
           !(l3.takeWhile isPySpace).isEmpty &&
             (match l3.dropWhile isPySpace with
              | c :: _ => isWordCh c
              | [] => false))))

/-- A word boundary `\b` immediately before a word character. -/
def boundaryBefore (prev : Option Char) : Bool :=
  match prev with
  | none => true
  | some p => !(isWordCh p)

/-- `re.search(r'\binterface\s+\w+', content)` as a boolean. -/
def hasInterfacesB (content : String) : Bool :=
  scanBool (fun prev l => boundaryBefore prev && interfaceAt l) none content.data

/-- `re.search(r'\babstract\s+class\s+\w+', content)` as a boolean. -/
def hasAbstractB (content : String) : Bool :=
  scanBool (fun prev l => boundaryBefore prev && abstractAt l) none content.data

/-- Substring containment. -/
def listContainsSub (sub : List Char) : List Char → Bool
  | [] => sub.isEmpty
  | c :: cs => sub.isPrefixOf (c :: cs) || listContainsSub sub cs

/-- `re.search(r'@Test\b|Test\w+\.java$|test|Test', content)`: the third and
fourth alternatives are plain substring searches and subsume the first two
(any `@Test...` or `Test\w+\.java` match contains the substring `Test`), so
the boolean is containment of `test` or `Test`. -/
def isTestContentB (content : String) : Bool :=
  listContainsSub "test".data content.data || listContainsSub "Test".data content.data

/-- `len(content.splitlines())`, modelling the `\n`, `\r` and `\r\n` line
boundaries; the boolean tracks whether unterminated content follows the
last boundary. -/
def lineCountGo : List Char → Bool → Nat
  | [], inLine => if inLine then 1 else 0
  | '\r' :: '\n' :: rest, _ => 1 + lineCountGo rest false
  | '\r' :: rest, _ => 1 + lineCountGo rest false
  | '\n' :: rest, _ => 1 + lineCountGo rest false
  | _ :: rest, _ => lineCountGo rest true

/-- `extract_metadata`'s `line_count`. -/
def pyLineCount (s : String) : Nat := lineCountGo s.data false

/-! ## `discover_components` aggregation (lines 340-413) -/

/-- One scanned file: source root directory, file name, file content. -/
abbrev JFile := String × String × String

/-- `os.path.join(root, file)` for a relative file name. -/
def pathJoin (a b : String) : String := a ++ "/" ++ b

/-- `os.path.dirname`: the path up to the last slash, with trailing slashes
stripped unless the head is all slashes. -/
def pathDirname (s : String) : String :=
  match s.data.reverse.dropWhile (fun c => c ≠ '/') with
  | [] => ""
  | l =>
    let l2 := l.dropWhile (fun c => c = '/')
    if l2.isEmpty then String.mk l.reverse else String.mk l2.reverse

/-- Association-list lookup with unique string keys. -/
def assocFind {β : Type} : List (String × β) → String → Option β
  | [], _ => none
  | (k0, v) :: rest, k => if k0 = k then some v else assocFind rest k

/-- `defaultdict(list)[k].append(v)`. -/
def assocAppend {β : Type} : List (String × List β) → String → β → List (String × List β)
  | [], k, v => [(k, [v])]
  | (k0, vs) :: rest, k, v =>
    if k0 = k then (k0, vs ++ [v]) :: rest else (k0, vs) :: assocAppend rest k v

/-- `d[k] = v` on a plain dict: overwrite in place or append. -/
def assocSet {β : Type} : List (String × β) → String → β → List (String × β)
  | [], k, v => [(k, v)]
  | (k0, v0) :: rest, k, v =>
    if k0 = k then (k0, v) :: rest else (k0, v0) :: assocSet rest k v

/-- The `package_files = defaultdict(list)` grouping loop: group scanned
files by their declared package, skipping files with no package
declaration; insertion order is first appearance. -/
def groupByPackage (files : List JFile) : List (String × List JFile) :=
  files.foldl
    (fun acc f =>
      match extractPackage f.2.2 with
      | none => acc
      | some p => assocAppend acc p f)
    []

/-- `package.split('.')[-1]`. -/
def lastSegment (p : String) : String := (pySplitDot p).getLastD ""

/-- Aggregate `extract_metadata` over a package group, as the `metadata`
dict built with `defaultdict(int)` and `|=` (the flags end up as the ints 0
or 1), in the key order of first assignment. -/
def aggMetadata (files : List JFile) : Json :=
  Json.obj
    [("file_count", Json.num files.length),
     ("total_lines", Json.num (Int.ofNat ((files.map (fun f => pyLineCount f.2.2)).sum))),
     ("has_interfaces", Json.num (if files.any (fun f => hasInterfacesB f.2.2) then 1 else 0)),
     ("has_abstract_classes", Json.num (if files.any (fun f => hasAbstractB f.2.2) then 1 else 0)),
     ("has_tests", Json.num (if files.any (fun f => isTestContentB f.2.2) then 1 else 0))]

/-- The `for package, files in package_files.items()` body: aggregate one
package group into a `Component`.  `none` models the `InvalidComponentError`
skip (empty derived name or nonexistent path); `fsE` is path existence. -/
def buildComponent (fsE : String → Bool) (isTest : Bool) (package : String)
    (files : List JFile) : Option Component :=
  match files with
  | [] => none
  | f0 :: _ =>
    let sourceFiles := files.map (fun f => pathJoin f.1 f.2.1)
    let deps := files.foldl (fun acc f => (findDependencies f.2.2).foldl setAdd acc) []
    let nm0 := lastSegment package
    let nm := if isTest then nm0 ++ "Test" else nm0
    let path := pathDirname (pathJoin f0.1 f0.2.1)
    if nm ≠ "" ∧ package ≠ "" ∧ fsE path then
      some ⟨nm, package, path, Json.arr (sourceFiles.map Json.str),
        deps.map Json.str, Json.bool isTest, aggMetadata files⟩
    else none

/-- One source root's aggregation: group by package, build a component per
group, skipping invalid ones. -/
def aggregateSrc (fsE : String → Bool) (isTest : Bool) (files : List JFile) :
    List Component :=
  (groupByPackage files).filterMap (fun g => buildComponent fsE isTest g.1 g.2)

/-- The `components[component.name] = component` insertion loop. -/
def insertComponents (comps : List Component) (m : List (String × Component)) :
    List (String × Component) :=
  comps.foldl (fun m2 c => assocSet m2 c.name c) m

/-- The component map `discover_components` returns: main sources are
processed first, then test sources, each component stored under its name
(silently replacing an earlier component with the same name). -/
def discoverComponentsMap (fsE : String → Bool) (mainFiles testFiles : List JFile) :
    List (String × Component) :=
  insertComponents (aggregateSrc fsE true testFiles)
    (insertComponents (aggregateSrc fsE false mainFiles) [])

/-- The full miss-path core of `discover_components` (cache interaction
modelled separately): aggregate both roots, add a graph node per created
component, resolve edges, and run the cycle check (whose result feeds only
a warning message).  `none` models an exception escaping into the
`ComponentDiscoveryError` wrapper. -/
def discoverCore (fsE : String → Bool) (mainFiles testFiles : List JFile) :
    Option (List (String × Component) × DepGraph String × Bool) :=
  let m := discoverComponentsMap fsE mainFiles testFiles
  let created := aggregateSrc fsE false mainFiles ++ aggregateSrc fsE true testFiles
  let g0 := created.foldl (fun g c => g.addNode c.name) DepGraph.empty
  match resolveEdges (m.map (fun e => e.2)) g0 with
  | none => none
  | some g1 =>
    match g1.hasCycles with
    | some (Except.ok b) => some (m, g1, b)
    | _ => none

/-! ### Concrete discovery inputs for claims C8 and C10 -/

/-- Every path exists. -/
def fsTrue : String → Bool := fun _ => true

/-- Two main-root files declaring `package com.acme.billing;`. -/
def billMains : List JFile :=
  [("r/src/main/java/com/acme/billing", "Invoice.java",
    "package com.acme.billing;\nimport com.acme.util.Strings;\npublic class Invoice {}\n"),
   ("r/src/main/java/com/acme/billing", "Bill.java",
    "package com.acme.billing;\npublic class Bill {}\n")]

/-- One test-root file declaring the same package. -/
def billTests : List JFile :=
  [("r/src/test/java/com/acme/billing", "BillTest.java",
    "package com.acme.billing;\npublic class BillTest {}\n")]

/-- The aggregated main billing component. -/
def compBilling : Component :=
  ⟨"billing", "com.acme.billing", "r/src/main/java/com/acme/billing",
    Json.arr [Json.str "r/src/main/java/com/acme/billing/Invoice.java",
      Json.str "r/src/main/java/com/acme/billing/Bill.java"],
    [Json.str "com.acme.util"], Json.bool false,
    Json.obj [("file_count", Json.num 2), ("total_lines", Json.num 5),
      ("has_interfaces", Json.num 0), ("has_abstract_classes", Json.num 0),
      ("has_tests", Json.num 0)]⟩

/-- A main file of package `a.x`. -/
def fileAx : JFile := ("r", "A.java", "package a.x;")

/-- A main file of package `b.x` — a distinct package deriving the same
component name `x`. -/
def fileBx : JFile := ("r", "B.java", "package b.x;")

/-- The component aggregated from `fileBx` alone. -/
def compBx : Component :=
  ⟨"x", "b.x", "r", Json.arr [Json.str "r/B.java"], [], Json.bool false,
    Json.obj [("file_count", Json.num 1), ("total_lines", Json.num 1),
      ("has_interfaces", Json.num 0), ("has_abstract_classes", Json.num 0),
      ("has_tests", Json.num 0)]⟩

/-! ## `ComponentCache.save` / `ComponentCache.load` (lines 168-258)

`save` serializes the component map and graph to a JSON document and writes
it under the fingerprint key; `load` parses the document back and
reconstructs the map and graph.  The embedding keeps the cache directory as
an association list from cache key to the parse outcome of the stored file
(`some none` = file present but not valid JSON, raising
`json.JSONDecodeError`).  Exceptions follow the source's handlers: the
outer `except (json.JSONDecodeError, KeyError)` turns a decode error or a
missing top-level key into a `CacheError`, the inner handlers and the
final `except Exception` turn everything else into a silent `None`. -/

/-- One entry of the `data['components']` array written by `save`
(lines 231-241). -/
def serializeComp (c : Component) : Json :=
  Json.obj [("name", Json.str c.name), ("package", Json.str c.package),
    ("path", Json.str c.path), ("source_files", c.source_files),
    ("dependencies", Json.arr c.dependencies), ("is_test", c.is_test),
    ("metadata", c.metadata)]

/-- The `edges` comprehension of `save` (lines 242-246):
`[[f, t] for f in components for t in graph.get_dependencies(f)]`, in
component-key order. -/
def savedEdges (comps : List (String × Component)) (g : DepGraph String) :
    List (String × String) :=
  (comps.map (fun e => e.1)).foldr
    (fun f acc => (g.getDependencies f).map (fun t => (f, t)) ++ acc) []

/-- The JSON document `save` writes (the `data` dict, lines 228-247). -/
def saveJson (ts : String) (comps : List (String × Component))
    (g : DepGraph String) : Json :=
  Json.obj [("version", Json.str "1.0"), ("timestamp", Json.str ts),
    ("components", Json.arr (comps.map (fun e => serializeComp e.2))),
    ("edges", Json.arr ((savedEdges comps g).map
      (fun e => Json.arr [Json.str e.1, Json.str e.2])))]

/-- Python hashability of an embedded JSON value: lists and dicts are
unhashable and raise `TypeError` when added to a set or used as a dict
key. -/
def jsonHashable : Json → Bool
  | .arr _ => false
  | .obj _ => false
  | _ => true

/-- `for x in v` over an embedded JSON value: arrays yield their elements,
strings their characters (as 1-character strings), dicts their keys in
insertion order; anything else raises `TypeError` (`none`). -/
def iterableElems : Json → Option (List Json)
  | .arr xs => some xs
  | .str s => some (s.data.map (fun ch => Json.str (String.mk [ch])))
  | .obj kvs => some (kvs.map (fun kv => Json.str kv.1))
  | _ => none

/-- `set(...)` over the elements of an iterable, in first-appearance order;
`none` when an element is unhashable (`TypeError`). -/
def setOf (xs : List Json) : Option (List Json) :=
  if xs.all jsonHashable then some (xs.foldl setAdd []) else none

/-- One iteration of the component-reconstruction loop (lines 185-199): the
`comp_data[...]` field reads, `set(comp_data['dependencies'])`, and the
`Component.__post_init__` validation.  `none` covers both the inner
`except (KeyError, InvalidComponentError)` and the `TypeError`s that escape
to the final `except Exception` — every such failure makes `load` return
`None`.  A non-string `name`/`package` is rejected by the `isinstance`
checks and a non-string `path` fails `os.path.exists`. -/
def buildCompFromRecord (fsE : String → Bool) (j : Json) : Option Component :=
  match j with
  | .obj kvs =>
    match Json.lookup kvs "name", Json.lookup kvs "package",
        Json.lookup kvs "path", Json.lookup kvs "source_files",
        Json.lookup kvs "dependencies", Json.lookup kvs "is_test",
        Json.lookup kvs "metadata" with
    | some nj, some pj, some paj, some sfj, some depj, some itj, some mj =>
      match nj, pj, paj with
      | .str n, .str p, .str pa =>
        if n ≠ "" ∧ p ≠ "" ∧ fsE pa then
          match iterableElems depj with
          | some ds =>
            match setOf ds with
            | some deps => some ⟨n, p, pa, sfj, deps, itj, mj⟩
            | none => none
          | none => none
        else none
      | _, _, _ => none
    | _, _, _, _, _, _, _ => none
  | _ => none

/-- The whole component-reconstruction loop:
`components[comp_data['name']] = Component(...)` in array order, any
failure aborting the load with a miss. -/
def buildAll (fsE : String → Bool) (records : List Json) :
    Option (List (String × Component)) :=
  records.foldlM
    (fun m j => (buildCompFromRecord fsE j).map (fun c => assocSet m c.name c))
    []

/-- `from_comp, to_comp = edge` (line 204): destructure an embedded JSON
value into exactly two parts.  Arrays unpack their elements, strings their
characters, dicts their keys; wrong arity raises `ValueError` and a
non-iterable `TypeError`, both caught by the loop's handler. -/
def unpack2 : Json → Option (Json × Json)
  | .arr [a, b] => some (a, b)
  | .arr _ => none
  | .str s =>
    match s.data with
    | [c1, c2] => some (.str (String.mk [c1]), .str (String.mk [c2]))
    | _ => none
  | .obj [kv1, kv2] => some (.str kv1.1, .str kv2.1)
  | .obj _ => none
  | _ => none

/-- The edge-reconstruction loop (lines 202-210): unpack each edge, then
`add_node(from)`, `add_node(to)`, `add_edge(from, to)` on a fresh graph; an
unpacking failure or an unhashable node (`TypeError` inside `add_node`) is
caught and makes `load` return `None`. -/
def buildGraph (edges : List Json) : Option (DepGraph Json) :=
  edges.foldlM
    (fun g e =>
      match unpack2 e with
      | some (f, t) =>
        if jsonHashable f && jsonHashable t then
          some (((g.addNode f).addNode t).addEdge f t)
        else none
      | none => none)
    DepGraph.empty

instance {β : Type} [DecidableEq β] : DecidableEq (DepGraph β) :=
  fun g1 g2 =>
    if h : g1.fwd = g2.fwd ∧ g1.rev = g2.rev then
      .isTrue (by cases g1; cases g2; simp_all)
    else
      .isFalse (by cases g1; cases g2; simp_all)

/-- The three outcomes of `ComponentCache.load`: a raised `CacheError`, a
silent miss (`None`), or a reconstructed component map and graph (whose
nodes are the JSON values stored in the edge list). -/
inductive LoadRes where
  | err : LoadRes
  | miss : LoadRes
  | hit (comps : List (String × Component)) (g : DepGraph Json) : LoadRes
deriving Repr, DecidableEq

/-- `ComponentCache.load` on parsed data (lines 176-219): the
`data.get('version')` gate, then component reconstruction, then edge
reconstruction.  A missing `components` or `edges` key is a `KeyError`
that escapes to the outer `except (json.JSONDecodeError, KeyError)`
handler and becomes a `CacheError`; a non-dict document makes
`data.get` raise `AttributeError`, which — like every other stray
exception — is swallowed by `except Exception` into a miss. -/
def loadEntry (fsE : String → Bool) (data : Json) : LoadRes :=
  match data with
  | .obj kvs =>
    if Json.lookup kvs "version" = some (Json.str "1.0") then
      match Json.lookup kvs "components" with
      | none => .err
      | some cj =>
        match iterableElems cj with
        | none => .miss
        | some records =>
          match buildAll fsE records with
          | none => .miss
          | some comps =>
            match Json.lookup kvs "edges" with
            | none => .err
            | some ej =>
              match iterableElems ej with
              | none => .miss
              | some es =>
                match buildGraph es with
                | none => .miss
                | some g => .hit comps g
    else .miss
  | _ => .miss

/-- `ComponentCache.load` at the file level: an absent cache file is an
immediate miss (`return None` on `not cache_path.exists()`); a file that
fails to parse raises `json.JSONDecodeError`, which the outer handler
rethrows as `CacheError`. -/
def loadCache (fsE : String → Bool) (store : List (String × Option Json))
    (key : String) : LoadRes :=
  match assocFind store key with
  | none => .miss
  | some none => .err
  | some (some j) => loadEntry fsE j

/-- A graph with an edge whose source is not a key of the (empty) component
map being saved. -/
def gSaveOnly : DepGraph String :=
  ((DepGraph.empty.addNode "a").addNode "b").addEdge "a" "b"

/-- A one-component graph with a self-edge, for the round-trip witness. -/
def gCore : DepGraph String := (DepGraph.empty.addNode "core").addEdge "core" "core"

/-! ## `ComponentCache._get_cache_key` (lines 126-139)

The repository walk is embedded as the list of `os.walk` steps — a
directory and its file names — plus a modification-time map.  The running
`hashlib.sha256` updates concatenate their inputs, so the digest is a hash
of the root path followed by the `f"{path}:{mtime}"` chunk of every
`.java` file, file names sorted within each directory.  The hash itself is
an abstract parameter of the embedding; collision-freedom (injectivity) is
the standing assumption on SHA-256.  Modification times are embedded as
naturals with their decimal rendering. -/

/-- The decimal digit characters. -/
def decDigit (d : Nat) : Char :=
  if d = 0 then '0' else if d = 1 then '1' else if d = 2 then '2' else
  if d = 3 then '3' else if d = 4 then '4' else if d = 5 then '5' else
  if d = 6 then '6' else if d = 7 then '7' else if d = 8 then '8' else
  if d = 9 then '9' else '*'

/-- Big-endian decimal digits of a positive natural, on fuel. -/
def decDigitsAux : Nat → Nat → List Char
  | 0, _ => []
  | fuel + 1, n =>
    if n = 0 then [] else decDigitsAux fuel (n / 10) ++ [decDigit (n % 10)]

/-- Decimal rendering of a natural number (the `f"{mtime}"` part of a
fingerprint chunk). -/
def decRepr (n : Nat) : String :=
  if n = 0 then "0" else String.mk (decDigitsAux n n)

/-- The numeric value of a big-endian list of decimal digit characters
(used to invert `decRepr`). -/
def digitsVal (l : List Char) : Nat :=
  l.foldl (fun acc c => acc * 10 + (c.toNat - 48)) 0

/-- `sorted(files)`. -/
def sortedNames (files : List String) : List String :=
  files.insertionSort (fun a b => a ≤ b)

/-- The byte string fed to the running `sha256`: the repository path, then
`f"{path}:{mtime}"` for every `.java` file of every walked directory. -/
def keyInput (repoPath : String) (walk : List (String × List String))
    (mtime : String → Nat) : String :=
  walk.foldl
    (fun acc d =>
      (sortedNames d.2).foldl
        (fun acc2 f =>
          if pyEndswith f ".java" then
            acc2 ++ (pathJoin d.1 f ++ ":" ++ decRepr (mtime (pathJoin d.1 f)))
          else acc2)
        acc)
    repoPath

/-- `_get_cache_key`: the digest of the fingerprint input. -/
def cacheKey (hash : String → String) (repoPath : String)
    (walk : List (String × List String)) (mtime : String → Nat) : String :=
  hash (keyInput repoPath walk mtime)

/-- The `.java` paths the fingerprint covers, in walk order. -/
def javaPaths (walk : List (String × List String)) : List String :=
  walk.foldl
    (fun acc d =>
      acc ++ ((sortedNames d.2).filter (fun f => pyEndswith f ".java")).map
        (fun f => pathJoin d.1 f))
    []

/-- One `f"{path}:{mtime}"` chunk of the fingerprint input. -/
def mtChunk (mtime : String → Nat) (p : String) : String :=
  p ++ ":" ++ decRepr (mtime p)

/-- Concatenation of a list of strings, in order. -/
def concatStr (l : List String) : String := l.foldl (fun a s => a ++ s) ""

/-! ### Unfolding lemmas for `visit` and its loop -/

theorem visitStep_foldl_none (fuel : Nat) (ds : List α) :
    ds.foldl (visitStep fuel) none = none := by
  induction ds with
  | nil => rfl
  | cons d ds IH => simp only [List.foldl_cons]; exact IH

theorem visitStep_foldl_true (fuel : Nat) (ds : List α) (s : DfsSt α) :
    ds.foldl (visitStep fuel) (some (true, s)) = some (true, s) := by
  induction ds with
  | nil => rfl
  | cons d ds IH => simp only [List.foldl_cons]; exact IH

theorem visitFold_nil (fuel : Nat) (st : DfsSt α) :
    visitFold fuel ([] : List α) st = some (false, st) := rfl

theorem visitFold_cons (fuel : Nat) (d : α) (ds : List α) (st : DfsSt α) :
    visitFold fuel (d :: ds) st =
      match visit fuel d st with
      | none => none
      | some (true, st1) => some (true, st1)
      | some (false, st1) => visitFold fuel ds st1 := by
  have h0 : visitFold fuel (d :: ds) st = ds.foldl (visitStep fuel) (visit fuel d st) := rfl
  rw [h0]
  cases hv : visit fuel d st with
  | none => rw [visitStep_foldl_none]
  | some bs =>
    obtain ⟨b, st1⟩ := bs
    cases b with
    | true => rw [visitStep_foldl_true]
    | false => rfl

theorem visit_succ (fuel : Nat) (c : α) (st : DfsSt α) :
    visit (fuel + 1) c st =
      (if c ∈ st.path then some (true, st)
       else if c ∈ st.visited then some (false, st)
       else
         match visitFold fuel (dictGetD st.fwd c).1
             ⟨(dictGetD st.fwd c).2, c :: st.visited, c :: st.path⟩ with
         | none => none
         | some (true, st3) => some (true, st3)
         | some (false, st3) => some (false, ⟨st3.fwd, st3.visited, st3.path.erase c⟩)) :=
  rfl

/-! ### Basic dictionary lemmas -/

theorem dictGet_ne_nil_mem {l : List (α × List α)} {k : α} (h : dictGet l k ≠ []) :
    k ∈ dictKeys l := by
  unfold dictGet at h
  match hf : l.find? (fun kv => kv.1 = k) with
  | none => rw [hf] at h; exact absurd rfl h
  | some kv =>
    have hm := List.mem_of_find?_eq_some hf
    have hk := List.find?_some hf
    simp only [decide_eq_true_eq] at hk
    exact hk ▸ List.mem_map_of_mem (fun kv => kv.1) hm

theorem mem_dictKeys_find?_isSome {l : List (α × List α)} {k : α} (h : k ∈ dictKeys l) :
    ∃ kv, l.find? (fun kv => kv.1 = k) = some kv := by
  obtain ⟨kv, hmem, hfst⟩ := List.mem_map.mp h
  match hf : l.find? (fun kv => kv.1 = k) with
  | some kv2 => exact ⟨kv2, hf⟩
  | none =>
    have := List.find?_eq_none.mp hf kv hmem
    simp [hfst] at this

theorem dictGetD_of_mem {l : List (α × List α)} {k : α} (h : k ∈ dictKeys l) :
    dictGetD l k = (dictGet l k, l) := by
  obtain ⟨kv, hf⟩ := mem_dictKeys_find?_isSome h
  unfold dictGetD dictGet
  rw [hf]

theorem edgeRel_source_mem {f : List (α × List α)} {x y : α} (h : edgeRel f x y) :
    x ∈ dictKeys f := by
  refine dictGet_ne_nil_mem (l := f) (k := x) ?_
  intro hnil
  have : y ∈ dictGet f x := h
  rw [hnil] at this
  cases this

theorem dictGet_nil (x : α) : dictGet ([] : List (α × List α)) x = [] := rfl

theorem dictGet_cons (k0 : α) (v0 : List α) (l : List (α × List α)) (x : α) :
    dictGet ((k0, v0) :: l) x = if k0 = x then v0 else dictGet l x := by
  unfold dictGet
  simp only [List.find?]
  by_cases h : k0 = x
  · simp [h]
  · simp [h]

theorem mem_setAdd {s : List α} {v x : α} : x ∈ setAdd s v ↔ x ∈ s ∨ x = v := by
  unfold setAdd
  by_cases hv : v ∈ s
  · rw [if_pos hv]
    constructor
    · exact Or.inl
    · rintro (h | rfl)
      · exact h
      · exact hv
  · rw [if_neg hv]
    simp

theorem dictGet_eq_nil_of_not_mem {l : List (α × List α)} {k : α} (h : k ∉ dictKeys l) :
    dictGet l k = [] := by
  cases hg : dictGet l k with
  | nil => rfl
  | cons y ys => exact absurd (dictGet_ne_nil_mem (by rw [hg]; simp)) h

theorem dictGet_dictAdd (l : List (α × List α)) (k v x : α) :
    dictGet (dictAdd l k v) x = if x = k then setAdd (dictGet l k) v else dictGet l x := by
  induction l with
  | nil =>
    show dictGet [(k, [v])] x = _
    by_cases hx : x = k
    · subst hx; simp [dictGet_cons, dictGet_nil, setAdd]
    · simp [dictGet_cons, dictGet_nil, hx, Ne.symm hx]
  | cons kv0 rest IH =>
    obtain ⟨k0, v0⟩ := kv0
    show dictGet (if k0 = k then (k0, setAdd v0 v) :: rest else (k0, v0) :: dictAdd rest k v) x
      = _
    by_cases h0 : k0 = k
    · subst h0
      by_cases hx : x = k0
      · subst hx; simp [dictGet_cons]
      · simp [dictGet_cons, hx, Ne.symm hx]
    · by_cases hx0 : x = k0
      · subst hx0; simp [dictGet_cons, h0, Ne.symm h0]
      · simp [dictGet_cons, h0, hx0, Ne.symm hx0, IH]

theorem mem_dictKeys_dictAdd {l : List (α × List α)} {k v x : α} :
    x ∈ dictKeys (dictAdd l k v) ↔ x = k ∨ x ∈ dictKeys l := by
  induction l with
  | nil => simp [dictAdd, dictKeys]
  | cons kv0 rest IH =>
    obtain ⟨k0, v0⟩ := kv0
    show x ∈ dictKeys (if k0 = k then (k0, setAdd v0 v) :: rest else (k0, v0) :: dictAdd rest k v)
      ↔ _
    by_cases h0 : k0 = k
    · subst h0
      rw [if_pos rfl]
      show x ∈ k0 :: dictKeys rest ↔ _
      constructor
      · intro h
        rcases List.mem_cons.mp h with rfl | h'
        · exact Or.inl rfl
        · exact Or.inr (List.mem_cons_of_mem _ h')
      · rintro (rfl | h')
        · exact List.mem_cons_self ..
        · exact h'
    · rw [if_neg h0]
      show x ∈ k0 :: dictKeys (dictAdd rest k v) ↔ _
      constructor
      · intro h
        rcases List.mem_cons.mp h with rfl | h'
        · exact Or.inr (List.mem_cons_self ..)
        · rcases IH.mp h' with h2 | h2
          · exact Or.inl h2
          · exact Or.inr (List.mem_cons_of_mem _ h2)
      · rintro (rfl | h')
        · exact List.mem_cons_of_mem _ (IH.mpr (Or.inl rfl))
        · rcases List.mem_cons.mp h' with rfl | h2
          · exact List.mem_cons_self ..
          · exact List.mem_cons_of_mem _ (IH.mpr (Or.inr h2))

theorem dictKeys_dictAdd_mem {l : List (α × List α)} {k : α} (v : α)
    (h : k ∈ dictKeys l) : dictKeys (dictAdd l k v) = dictKeys l := by
  induction l with
  | nil => cases h
  | cons kv0 rest IH =>
    obtain ⟨k0, v0⟩ := kv0
    show dictKeys (if k0 = k then (k0, setAdd v0 v) :: rest else (k0, v0) :: dictAdd rest k v)
      = _
    by_cases h0 : k0 = k
    · rw [if_pos h0]; rfl
    · rw [if_neg h0]
      show k0 :: dictKeys (dictAdd rest k v) = k0 :: dictKeys rest
      have hk : k ∈ dictKeys rest := by
        rcases List.mem_cons.mp h with rfl | h'
        · exact absurd rfl h0
        · exact h'
      rw [IH hk]

theorem dictGet_dictSetEmpty (l : List (α × List α)) (k x : α) :
    dictGet (dictSetEmpty l k) x = if x = k then [] else dictGet l x := by
  induction l with
  | nil =>
    show dictGet [(k, [])] x = _
    by_cases hx : x = k
    · subst hx; simp [dictGet_cons]
    · simp [dictGet_cons, dictGet_nil, hx, Ne.symm hx]
  | cons kv0 rest IH =>
    obtain ⟨k0, v0⟩ := kv0
    show dictGet (if k0 = k then (k0, ([] : List α)) :: rest else (k0, v0) :: dictSetEmpty rest k) x
      = _
    by_cases h0 : k0 = k
    · subst h0
      by_cases hx : x = k0
      · subst hx; simp [dictGet_cons]
      · simp [dictGet_cons, hx, Ne.symm hx]
    · by_cases hx0 : x = k0
      · subst hx0; simp [dictGet_cons, h0, Ne.symm h0]
      · simp [dictGet_cons, h0, hx0, Ne.symm hx0, IH]

theorem dictKeys_dictSetEmpty_fresh {l : List (α × List α)} {k : α}
    (h : k ∉ dictKeys l) : dictKeys (dictSetEmpty l k) = dictKeys l ++ [k] := by
  induction l with
  | nil => rfl
  | cons kv0 rest IH =>
    obtain ⟨k0, v0⟩ := kv0
    have h0 : k0 ≠ k := by
      intro he
      exact h (he ▸ List.mem_cons_self ..)
    have hr : k ∉ dictKeys rest := fun hk => h (List.mem_cons_of_mem _ hk)
    show dictKeys (if k0 = k then (k0, ([] : List α)) :: rest else (k0, v0) :: dictSetEmpty rest k)
      = _
    rw [if_neg h0]
    show k0 :: dictKeys (dictSetEmpty rest k) = (k0 :: dictKeys rest) ++ [k]
    rw [IH hr]
    rfl

theorem dictGet_append_single {l : List (α × List α)} {c : α} (v : List α)
    (h : c ∉ dictKeys l) (x : α) :
    dictGet (l ++ [(c, v)]) x = if x = c then v else dictGet l x := by
  induction l with
  | nil =>
    rw [List.nil_append]
    by_cases hx : x = c
    · subst hx; simp [dictGet_cons]
    · simp [dictGet_cons, dictGet_nil, hx, Ne.symm hx]
  | cons kv0 rest IH =>
    obtain ⟨k0, v0⟩ := kv0
    have h0 : c ≠ k0 := by
      intro he
      exact h (he ▸ List.mem_cons_self ..)
    have hr : c ∉ dictKeys rest := fun hk => h (List.mem_cons_of_mem _ hk)
    rw [List.cons_append]
    by_cases hx0 : x = k0
    · subst hx0
      rw [dictGet_cons, dictGet_cons, if_pos rfl, if_pos rfl,
        if_neg (fun he : x = c => h0 he.symm)]
    · simp [dictGet_cons, hx0, Ne.symm hx0, IH hr]

theorem edgeRel_target_mem {f : List (α × List α)} {x y : α} (h : edgeRel f x y) :
    y ∈ (f.map (fun kv => kv.2)).flatten := by
  have hy : y ∈ dictGet f x := h
  unfold dictGet at hy
  match hf : f.find? (fun kv => kv.1 = x) with
  | none => rw [hf] at hy; cases hy
  | some kv =>
    rw [hf] at hy
    exact List.mem_flatten.mpr ⟨kv.2, List.mem_map_of_mem _ (List.mem_of_find?_eq_some hf), hy⟩

theorem targetsIn_dictGet {f : List (α × List α)} (h : TargetsIn f) (c : α) :
    ∀ t ∈ dictGet f c, t ∈ dictKeys f := by
  intro t ht
  unfold dictGet at ht
  match hf : f.find? (fun kv => kv.1 = c) with
  | none => rw [hf] at ht; cases ht
  | some kv =>
    rw [hf] at ht
    exact h kv (List.mem_of_find?_eq_some hf) t ht

theorem dictGetD_snd_append (l : List (α × List α)) (k : α) :
    ∃ ext, (dictGetD l k).2 = l ++ ext := by
  unfold dictGetD
  cases hfind : l.find? (fun kv => kv.1 = k) with
  | none => exact ⟨[(k, [])], rfl⟩
  | some kv => exact ⟨[], by simp⟩

/-! ### General behaviour of `visit`: visited grows monotonically, a `False`
return restores `path` exactly, and the forward dict only ever gains
appended entries. -/

theorem visit_general :
    ∀ (fuel : Nat),
      (∀ (c : α) (st : DfsSt α) b st', visit fuel c st = some (b, st') →
        st.visited ⊆ st'.visited ∧ (b = false → st'.path = st.path) ∧
        ∃ ext, st'.fwd = st.fwd ++ ext) ∧
      (∀ (ds : List α) (st : DfsSt α) b st', visitFold fuel ds st = some (b, st') →
        st.visited ⊆ st'.visited ∧ (b = false → st'.path = st.path) ∧
        ∃ ext, st'.fwd = st.fwd ++ ext) := by
  intro fuel
  induction fuel using Nat.strong_induction_on with
  | _ fuel IH =>
    have hvisit : ∀ (c : α) (st : DfsSt α) b st', visit fuel c st = some (b, st') →
        st.visited ⊆ st'.visited ∧ (b = false → st'.path = st.path) ∧
        ∃ ext, st'.fwd = st.fwd ++ ext := by
      intro c st b st' h
      match fuel with
      | 0 => simp [visit] at h
      | fuel + 1 =>
        rw [visit_succ] at h
        by_cases hp : c ∈ st.path
        · simp only [hp, if_true] at h
          obtain ⟨hb, hst⟩ := Prod.mk.injEq .. ▸ (Option.some.injEq .. ▸ h)
          subst hst
          exact ⟨fun x hx => hx, fun hf => by simp [← hb] at hf, [], by simp⟩
        · simp only [hp, if_false] at h
          by_cases hv : c ∈ st.visited
          · simp only [hv, if_true] at h
            obtain ⟨hb, hst⟩ := Prod.mk.injEq .. ▸ (Option.some.injEq .. ▸ h)
            subst hst
            exact ⟨fun x hx => hx, fun _ => rfl, [], by simp⟩
          · simp only [hv, if_false] at h
            set deps := dictGetD st.fwd c with hdeps
            set st2 : DfsSt α := ⟨deps.2, c :: st.visited, c :: st.path⟩ with hst2
            match hfold : visitFold fuel deps.1 st2 with
            | none => rw [hfold] at h; cases h
            | some (true, st3) =>
              rw [hfold] at h
              obtain ⟨hb, hst⟩ := Prod.mk.injEq .. ▸ (Option.some.injEq .. ▸ h)
              subst hst
              obtain ⟨hvis, _, ext, hfwd⟩ := (IH fuel (Nat.lt_succ_self _)).2 deps.1 st2 true st3 hfold
              obtain ⟨ext0, hext0⟩ := dictGetD_snd_append st.fwd c
              have h2 : st2.fwd = st.fwd ++ ext0 := hext0
              refine ⟨fun x hx => hvis (by simp [hst2]; exact Or.inr hx), ?_, ?_⟩
              · intro hfalse; simp [← hb] at hfalse
              · exact ⟨ext0 ++ ext, by rw [hfwd, h2, List.append_assoc]⟩
            | some (false, st3) =>
              rw [hfold] at h
              obtain ⟨hb, hst⟩ := Prod.mk.injEq .. ▸ (Option.some.injEq .. ▸ h)
              subst hst
              obtain ⟨hvis, hpath, ext, hfwd⟩ := (IH fuel (Nat.lt_succ_self _)).2 deps.1 st2 false st3 hfold
              obtain ⟨ext0, hext0⟩ := dictGetD_snd_append st.fwd c
              have h2 : st2.fwd = st.fwd ++ ext0 := hext0
              refine ⟨fun x hx => hvis (by simp [hst2]; exact Or.inr hx), ?_, ?_⟩
              · intro _
                have hp3 : st3.path = c :: st.path := by
                  rw [hpath rfl]
                have : st3.path.erase c = st.path := by
                  rw [hp3, List.erase_cons_head]
                simpa using this
              · exact ⟨ext0 ++ ext, by simp only; rw [hfwd, h2, List.append_assoc]⟩
    refine ⟨hvisit, ?_⟩
    intro ds
    induction ds with
    | nil =>
      intro st b st' h
      rw [visitFold_nil] at h
      obtain ⟨hb, hst⟩ := Prod.mk.injEq .. ▸ (Option.some.injEq .. ▸ h)
      subst hst
      exact ⟨fun x hx => hx, fun _ => rfl, [], by simp⟩
    | cons d ds IHds =>
      intro st b st' h
      rw [visitFold_cons] at h
      match hv : visit fuel d st with
      | none => rw [hv] at h; cases h
      | some (true, st1) =>
        rw [hv] at h
        obtain ⟨hb, hst⟩ := Prod.mk.injEq .. ▸ (Option.some.injEq .. ▸ h)
        subst hst
        obtain ⟨hvis, _, ext, hfwd⟩ := hvisit d st true st1 hv
        exact ⟨hvis, fun hfalse => by simp [← hb] at hfalse, ext, hfwd⟩
      | some (false, st1) =>
        rw [hv] at h
        obtain ⟨hvis1, hpath1, ext1, hfwd1⟩ := hvisit d st false st1 hv
        obtain ⟨hvis2, hpath2, ext2, hfwd2⟩ := IHds st1 b st' h
        refine ⟨fun x hx => hvis2 (hvis1 hx), ?_, ext1 ++ ext2, ?_⟩
        · intro hb; rw [hpath2 hb, hpath1 rfl]
        · rw [hfwd2, hfwd1, List.append_assoc]

/-! ### Closed graphs: the forward dict never changes during traversal -/

theorem visit_closed (f0 : List (α × List α)) (hT : TargetsIn f0) :
    ∀ (fuel : Nat),
      (∀ (c : α) (st : DfsSt α) b st', st.fwd = f0 → c ∈ dictKeys f0 →
        visit fuel c st = some (b, st') → st'.fwd = f0) ∧
      (∀ (ds : List α) (st : DfsSt α) b st', st.fwd = f0 → (∀ d ∈ ds, d ∈ dictKeys f0) →
        visitFold fuel ds st = some (b, st') → st'.fwd = f0) := by
  intro fuel
  induction fuel using Nat.strong_induction_on with
  | _ fuel IH =>
    have hvisit : ∀ (c : α) (st : DfsSt α) b st', st.fwd = f0 → c ∈ dictKeys f0 →
        visit fuel c st = some (b, st') → st'.fwd = f0 := by
      intro c st b st' hf hc h
      match fuel with
      | 0 => simp [visit] at h
      | fuel + 1 =>
        rw [visit_succ] at h
        by_cases hp : c ∈ st.path
        · simp only [hp, if_true] at h
          obtain ⟨hb, hst⟩ := Prod.mk.injEq .. ▸ (Option.some.injEq .. ▸ h)
          subst hst; exact hf
        · simp only [hp, if_false] at h
          by_cases hv : c ∈ st.visited
          · simp only [hv, if_true] at h
            obtain ⟨hb, hst⟩ := Prod.mk.injEq .. ▸ (Option.some.injEq .. ▸ h)
            subst hst; exact hf
          · simp only [hv, if_false] at h
            set deps := dictGetD st.fwd c with hdeps
            set st2 : DfsSt α := ⟨deps.2, c :: st.visited, c :: st.path⟩ with hst2
            have hdeq : deps = (dictGet f0 c, f0) := by
              rw [hdeps, hf]
              exact dictGetD_of_mem hc
            have hf2 : st2.fwd = f0 := by rw [hst2]; simp only; rw [hdeq]
            have hds : ∀ d ∈ deps.1, d ∈ dictKeys f0 := by
              intro d hd
              rw [hdeq] at hd
              exact targetsIn_dictGet hT c d hd
            match hfold : visitFold fuel deps.1 st2 with
            | none => rw [hfold] at h; cases h
            | some (true, st3) =>
              rw [hfold] at h
              obtain ⟨hb, hst⟩ := Prod.mk.injEq .. ▸ (Option.some.injEq .. ▸ h)
              subst hst
              exact (IH fuel (Nat.lt_succ_self _)).2 deps.1 st2 true st3 hf2 hds hfold
            | some (false, st3) =>
              rw [hfold] at h
              obtain ⟨hb, hst⟩ := Prod.mk.injEq .. ▸ (Option.some.injEq .. ▸ h)
              subst hst
              exact (IH fuel (Nat.lt_succ_self _)).2 deps.1 st2 false st3 hf2 hds hfold
    refine ⟨hvisit, ?_⟩
    intro ds
    induction ds with
    | nil =>
      intro st b st' hf _ h
      rw [visitFold_nil] at h
      obtain ⟨hb, hst⟩ := Prod.mk.injEq .. ▸ (Option.some.injEq .. ▸ h)
      subst hst; exact hf
    | cons d ds IHds =>
      intro st b st' hf hds h
      rw [visitFold_cons] at h
      match hv : visit fuel d st with
      | none => rw [hv] at h; cases h
      | some (true, st1) =>
        rw [hv] at h
        obtain ⟨hb, hst⟩ := Prod.mk.injEq .. ▸ (Option.some.injEq .. ▸ h)
        subst hst
        exact hvisit d st true st1 hf (hds d (by simp)) hv
      | some (false, st1) =>
        rw [hv] at h
        have hf1 : st1.fwd = f0 := hvisit d st false st1 hf (hds d (by simp)) hv
        exact IHds st1 b st' hf1 (fun x hx => hds x (by simp [hx])) h

/-! ### Soundness: a `True` return exhibits a directed cycle -/

theorem chain_reflTransGen (f0 : List (α × List α)) :
    ∀ (tl : List α) (hd : α), List.Chain' (fun a b => edgeRel f0 b a) (hd :: tl) →
      ∀ c ∈ hd :: tl, Relation.ReflTransGen (edgeRel f0) c hd := by
  intro tl
  induction tl with
  | nil =>
    intro hd _ c hc
    simp only [List.mem_singleton] at hc
    subst hc; exact .refl
  | cons hd2 tl2 IH =>
    intro hd hchain c hc
    have h1 : edgeRel f0 hd2 hd := (List.chain'_cons.mp hchain).1
    have h2 := (List.chain'_cons.mp hchain).2
    rcases List.mem_cons.mp hc with rfl | hc2
    · exact .refl
    · exact (IH hd2 h2 c hc2).tail h1

theorem visit_sound (f0 : List (α × List α)) (hT : TargetsIn f0) :
    ∀ (fuel : Nat),
      (∀ (c : α) (st : DfsSt α) st', st.fwd = f0 → c ∈ dictKeys f0 →
        List.Chain' (fun a b => edgeRel f0 b a) st.path →
        (∀ hd tl, st.path = hd :: tl → edgeRel f0 hd c) →
        visit fuel c st = some (true, st') →
        ∃ v, Relation.TransGen (edgeRel f0) v v) ∧
      (∀ (ds : List α) (st : DfsSt α) st', st.fwd = f0 → (∀ d ∈ ds, d ∈ dictKeys f0) →
        List.Chain' (fun a b => edgeRel f0 b a) st.path →
        (∀ hd tl, st.path = hd :: tl → ∀ d ∈ ds, edgeRel f0 hd d) →
        visitFold fuel ds st = some (true, st') →
        ∃ v, Relation.TransGen (edgeRel f0) v v) := by
  intro fuel
  induction fuel using Nat.strong_induction_on with
  | _ fuel IH =>
    have hvisit : ∀ (c : α) (st : DfsSt α) st', st.fwd = f0 → c ∈ dictKeys f0 →
        List.Chain' (fun a b => edgeRel f0 b a) st.path →
        (∀ hd tl, st.path = hd :: tl → edgeRel f0 hd c) →
        visit fuel c st = some (true, st') →
        ∃ v, Relation.TransGen (edgeRel f0) v v := by
      intro c st st' hf hc hchain hpre h
      match fuel with
      | 0 => simp [visit] at h
      | fuel + 1 =>
        rw [visit_succ] at h
        by_cases hp : c ∈ st.path
        · cases hpth : st.path with
          | nil => rw [hpth] at hp; cases hp
          | cons hd tl =>
            have hedge : edgeRel f0 hd c := hpre hd tl hpth
            rw [hpth] at hchain
            have hmem : c ∈ hd :: tl := hpth ▸ hp
            have hrt := chain_reflTransGen f0 tl hd hchain c hmem
            exact ⟨c, Relation.TransGen.tail' hrt hedge⟩
        · simp only [hp, if_false] at h
          by_cases hv : c ∈ st.visited
          · simp only [hv, if_true] at h
            simp at h
          · simp only [hv, if_false] at h
            set deps := dictGetD st.fwd c with hdeps
            set st2 : DfsSt α := ⟨deps.2, c :: st.visited, c :: st.path⟩ with hst2
            have hdeq : deps = (dictGet f0 c, f0) := by
              rw [hdeps, hf]
              exact dictGetD_of_mem hc
            have hf2 : st2.fwd = f0 := by rw [hst2]; simp only; rw [hdeq]
            have hds : ∀ d ∈ deps.1, d ∈ dictKeys f0 := by
              intro d hd
              rw [hdeq] at hd
              exact targetsIn_dictGet hT c d hd
            have hpath2 : st2.path = c :: st.path := rfl
            have hchain2 : List.Chain' (fun a b => edgeRel f0 b a) st2.path := by
              rw [hpath2]
              refine List.chain'_cons'.mpr ⟨?_, hchain⟩
              intro y hy
              cases hpth : st.path with
              | nil => rw [hpth] at hy; cases hy
              | cons hd tl =>
                rw [hpth] at hy
                simp only [List.head?_cons, Option.mem_def, Option.some.injEq] at hy
                subst hy
                exact hpre hd tl hpth
            have hpre2 : ∀ hd tl, st2.path = hd :: tl → ∀ d ∈ deps.1, edgeRel f0 hd d := by
              intro hd tl hpth d hd2
              rw [hpath2] at hpth
              obtain ⟨rfl, -⟩ : c = hd ∧ st.path = tl := by
                constructor
                · exact (List.cons.injEq .. ▸ hpth).1
                · exact (List.cons.injEq .. ▸ hpth).2
              show d ∈ dictGet f0 c
              rw [hdeq] at hd2
              exact hd2
            match hfold : visitFold fuel deps.1 st2 with
            | none => rw [hfold] at h; cases h
            | some (false, st3) => rw [hfold] at h; simp at h
            | some (true, st3) =>
              exact (IH fuel (Nat.lt_succ_self _)).2 deps.1 st2 st3 hf2 hds hchain2 hpre2 hfold
    refine ⟨hvisit, ?_⟩
    intro ds
    induction ds with
    | nil =>
      intro st st' _ _ _ _ h
      rw [visitFold_nil] at h; simp at h
    | cons d ds IHds =>
      intro st st' hf hds hchain hpre h
      rw [visitFold_cons] at h
      match hv : visit fuel d st with
      | none => rw [hv] at h; cases h
      | some (true, st1) =>
        exact hvisit d st st1 hf (hds d (by simp)) hchain
          (fun hd tl hpth => hpre hd tl hpth d (by simp)) hv
      | some (false, st1) =>
        rw [hv] at h
        have hf1 : st1.fwd = f0 :=
          (visit_closed f0 hT fuel).1 d st false st1 hf (hds d (by simp)) hv
        have hp1 : st1.path = st.path :=
          ((visit_general fuel).1 d st false st1 hv).2.1 rfl
        refine IHds st1 st' hf1 (fun x hx => hds x (by simp [hx])) ?_ ?_ h
        · rw [hp1]; exact hchain
        · intro hd tl hpth
          rw [hp1] at hpth
          exact fun x hx => hpre hd tl hpth x (by simp [hx])

/-! ### Completeness: a `False` return marks the node done and preserves the
invariant that done nodes are acyclic and closed under edges -/

theorem visit_complete (f0 : List (α × List α)) (hT : TargetsIn f0) :
    ∀ (fuel : Nat),
      (∀ (c : α) (st : DfsSt α) st', st.fwd = f0 → c ∈ dictKeys f0 → dfsInv f0 st →
        visit fuel c st = some (false, st') →
        dfsInv f0 st' ∧ doneNode st' c ∧ (∀ u, doneNode st u → doneNode st' u)) ∧
      (∀ (ds : List α) (st : DfsSt α) st', st.fwd = f0 → (∀ d ∈ ds, d ∈ dictKeys f0) →
        dfsInv f0 st →
        visitFold fuel ds st = some (false, st') →
        dfsInv f0 st' ∧ (∀ d ∈ ds, doneNode st' d) ∧
        (∀ u, doneNode st u → doneNode st' u)) := by
  intro fuel
  induction fuel using Nat.strong_induction_on with
  | _ fuel IH =>
    have hvisit : ∀ (c : α) (st : DfsSt α) st', st.fwd = f0 → c ∈ dictKeys f0 →
        dfsInv f0 st →
        visit fuel c st = some (false, st') →
        dfsInv f0 st' ∧ doneNode st' c ∧ (∀ u, doneNode st u → doneNode st' u) := by
      intro c st st' hf hc hInv h
      match fuel with
      | 0 => simp [visit] at h
      | fuel + 1 =>
        rw [visit_succ] at h
        by_cases hp : c ∈ st.path
        · simp only [hp, if_true] at h; simp at h
        · simp only [hp, if_false] at h
          by_cases hv : c ∈ st.visited
          · simp only [hv, if_true] at h
            obtain ⟨-, hst⟩ := Prod.mk.injEq .. ▸ (Option.some.injEq .. ▸ h)
            subst hst
            exact ⟨hInv, ⟨hv, hp⟩, fun u hu => hu⟩
          · simp only [hv, if_false] at h
            set deps := dictGetD st.fwd c with hdeps
            set st2 : DfsSt α := ⟨deps.2, c :: st.visited, c :: st.path⟩ with hst2
            have hdeq : deps = (dictGet f0 c, f0) := by
              rw [hdeps, hf]
              exact dictGetD_of_mem hc
            have hf2 : st2.fwd = f0 := by rw [hst2]; simp only; rw [hdeq]
            have hds : ∀ d ∈ deps.1, d ∈ dictKeys f0 := by
              intro d hd
              rw [hdeq] at hd
              exact targetsIn_dictGet hT c d hd
            have hvis2 : st2.visited = c :: st.visited := rfl
            have hpath2 : st2.path = c :: st.path := rfl
            have hdone_eq : ∀ u, doneNode st2 u ↔ doneNode st u := by
              intro u
              constructor
              · rintro ⟨hu1, hu2⟩
                rw [hvis2] at hu1
                rw [hpath2] at hu2
                have hne : u ≠ c := fun he => hu2 (he ▸ List.mem_cons_self ..)
                rcases List.mem_cons.mp hu1 with he | hu1'
                · exact absurd he hne
                · exact ⟨hu1', fun hup => hu2 (List.mem_cons_of_mem _ hup)⟩
              · rintro ⟨hu1, hu2⟩
                have hne : u ≠ c := fun he => hv (he ▸ hu1)
                refine ⟨by rw [hvis2]; exact List.mem_cons_of_mem _ hu1, ?_⟩
                rw [hpath2]
                intro hup
                rcases List.mem_cons.mp hup with he | hup'
                · exact hne he
                · exact hu2 hup'
            have hInv2 : dfsInv f0 st2 := by
              refine ⟨?_, ?_⟩
              · intro u hu w hw
                exact (hdone_eq w).mpr (hInv.1 u ((hdone_eq u).mp hu) w hw)
              · intro u hu
                exact hInv.2 u ((hdone_eq u).mp hu)
            match hfold : visitFold fuel deps.1 st2 with
            | none => rw [hfold] at h; cases h
            | some (true, st3) => rw [hfold] at h; simp at h
            | some (false, st3) =>
              rw [hfold] at h
              obtain ⟨-, hst⟩ := Prod.mk.injEq .. ▸ (Option.some.injEq .. ▸ h)
              obtain ⟨hInv3, hdeps3, hmono3⟩ :=
                (IH fuel (Nat.lt_succ_self _)).2 deps.1 st2 st3 hf2 hds hInv2 hfold
              have hp3 : st3.path = c :: st.path := by
                have := ((visit_general fuel).2 deps.1 st2 false st3 hfold).2.1 rfl
                rw [this, hpath2]
              have hvsub : st2.visited ⊆ st3.visited :=
                ((visit_general fuel).2 deps.1 st2 false st3 hfold).1
              have hcvis3 : c ∈ st3.visited := hvsub (by rw [hvis2]; exact List.mem_cons_self ..)
              have hpath' : st3.path.erase c = st.path := by
                rw [hp3, List.erase_cons_head]
              have hdone' : ∀ u, doneNode st' u ↔ (u ∈ st3.visited ∧ u ∉ st.path) := by
                intro u
                rw [← hst]
                unfold doneNode
                simp only [hpath']
              have hdone3_to : ∀ u, doneNode st3 u → doneNode st' u := by
                intro u ⟨hu1, hu2⟩
                refine (hdone' u).mpr ⟨hu1, fun hup => hu2 ?_⟩
                rw [hp3]
                exact List.mem_cons_of_mem _ hup
              refine ⟨⟨?_, ?_⟩, ?_, ?_⟩
              · -- done set of st' closed under edges
                intro u hu w hw
                by_cases huc : u = c
                · subst huc
                  have hwdeps : w ∈ deps.1 := by
                    rw [hdeq]
                    exact hw
                  exact hdone3_to w (hdeps3 w hwdeps)
                · have hu3 : doneNode st3 u := by
                    obtain ⟨hu1, hu2⟩ := (hdone' u).mp hu
                    refine ⟨hu1, ?_⟩
                    rw [hp3]
                    intro hup
                    rcases List.mem_cons.mp hup with he | hup'
                    · exact huc he
                    · exact hu2 hup'
                  exact hdone3_to w (hInv3.1 u hu3 w hw)
              · -- done set of st' contains no cycle node
                intro u hu
                by_cases huc : u = c
                · subst huc
                  intro hcyc
                  obtain ⟨w, hw, hwc⟩ := Relation.TransGen.head'_iff.mp hcyc
                  have hwdeps : w ∈ deps.1 := by rw [hdeq]; exact hw
                  have hd3 := hdeps3 w hwdeps
                  exact hInv3.2 w hd3 (Relation.TransGen.tail' hwc hw)
                · have hu3 : doneNode st3 u := by
                    obtain ⟨hu1, hu2⟩ := (hdone' u).mp hu
                    refine ⟨hu1, ?_⟩
                    rw [hp3]
                    intro hup
                    rcases List.mem_cons.mp hup with he | hup'
                    · exact huc he
                    · exact hu2 hup'
                  exact hInv3.2 u hu3
              · -- c itself is now done
                exact (hdone' c).mpr ⟨hcvis3, hp⟩
              · -- done set monotone
                intro u hu
                exact hdone3_to u (hmono3 u ((hdone_eq u).mpr hu))
    refine ⟨hvisit, ?_⟩
    intro ds
    induction ds with
    | nil =>
      intro st st' _ _ hInv h
      rw [visitFold_nil] at h
      obtain ⟨-, hst⟩ := Prod.mk.injEq .. ▸ (Option.some.injEq .. ▸ h)
      subst hst
      exact ⟨hInv, by simp, fun u hu => hu⟩
    | cons d ds IHds =>
      intro st st' hf hds hInv h
      rw [visitFold_cons] at h
      match hv : visit fuel d st with
      | none => rw [hv] at h; cases h
      | some (true, st1) => rw [hv] at h; simp at h
      | some (false, st1) =>
        rw [hv] at h
        obtain ⟨hInv1, hdone1, hmono1⟩ := hvisit d st st1 hf (hds d (by simp)) hInv hv
        have hf1 : st1.fwd = f0 :=
          (visit_closed f0 hT fuel).1 d st false st1 hf (hds d (by simp)) hv
        obtain ⟨hInv', hds', hmono'⟩ :=
          IHds st1 st' hf1 (fun x hx => hds x (by simp [hx])) hInv1 h
        refine ⟨hInv', ?_, fun u hu => hmono' u (hmono1 u hu)⟩
        intro x hx
        rcases List.mem_cons.mp hx with rfl | hx'
        · exact hmono' x hdone1
        · exact hds' x hx'

/-! ### Fuel sufficiency: the fuel `has_cycles` supplies never runs out -/

theorem visit_fuel (f0 : List (α × List α)) (hT : TargetsIn f0) (P : List α)
    (hP : ∀ k ∈ dictKeys f0, k ∈ P) :
    ∀ (fuel : Nat),
      (∀ (c : α) (st : DfsSt α), st.fwd = f0 → c ∈ dictKeys f0 →
        remaining P st < fuel → visit fuel c st ≠ none) ∧
      (∀ (ds : List α) (st : DfsSt α), st.fwd = f0 → (∀ d ∈ ds, d ∈ dictKeys f0) →
        remaining P st < fuel → visitFold fuel ds st ≠ none) := by
  intro fuel
  induction fuel using Nat.strong_induction_on with
  | _ fuel IH =>
    have hvisit : ∀ (c : α) (st : DfsSt α), st.fwd = f0 → c ∈ dictKeys f0 →
        remaining P st < fuel → visit fuel c st ≠ none := by
      intro c st hf hc hlt h
      match fuel, hlt with
      | fuel + 1, hlt =>
        rw [visit_succ] at h
        by_cases hp : c ∈ st.path
        · simp only [hp, if_true] at h; cases h
        · simp only [hp, if_false] at h
          by_cases hv : c ∈ st.visited
          · simp only [hv, if_true] at h; cases h
          · simp only [hv, if_false] at h
            set deps := dictGetD st.fwd c with hdeps
            set st2 : DfsSt α := ⟨deps.2, c :: st.visited, c :: st.path⟩ with hst2
            have hdeq : deps = (dictGet f0 c, f0) := by
              rw [hdeps, hf]
              exact dictGetD_of_mem hc
            have hf2 : st2.fwd = f0 := by rw [hst2]; simp only; rw [hdeq]
            have hds : ∀ d ∈ deps.1, d ∈ dictKeys f0 := by
              intro d hd
              rw [hdeq] at hd
              exact targetsIn_dictGet hT c d hd
            have hmemP : c ∈ P.toFinset \ st.visited.toFinset := by
              rw [Finset.mem_sdiff, List.mem_toFinset, List.mem_toFinset]
              exact ⟨hP c hc, hv⟩
            have hrem2 : remaining P st2 < remaining P st := by
              unfold remaining
              have hvis2 : st2.visited = c :: st.visited := rfl
              rw [hvis2, List.toFinset_cons, Finset.sdiff_insert]
              exact Finset.card_erase_lt_of_mem hmemP
            have hlt2 : remaining P st2 < fuel :=
              Nat.lt_of_lt_of_le hrem2 (Nat.lt_succ_iff.mp hlt)
            match hfold : visitFold fuel deps.1 st2 with
            | none =>
              exact (IH fuel (Nat.lt_succ_self _)).2 deps.1 st2 hf2 hds hlt2 hfold
            | some (true, st3) => rw [hfold] at h; cases h
            | some (false, st3) => rw [hfold] at h; cases h
    refine ⟨hvisit, ?_⟩
    intro ds
    induction ds with
    | nil =>
      intro st _ _ _ h
      rw [visitFold_nil] at h; simp at h
    | cons d ds IHds =>
      intro st hf hds hlt h
      rw [visitFold_cons] at h
      match hv : visit fuel d st with
      | none => exact hvisit d st hf (hds d (by simp)) hlt hv
      | some (true, st1) => rw [hv] at h; cases h
      | some (false, st1) =>
        rw [hv] at h
        have hf1 : st1.fwd = f0 :=
          (visit_closed f0 hT fuel).1 d st false st1 hf (hds d (by simp)) hv
        have hsub : st.visited ⊆ st1.visited := ((visit_general fuel).1 d st false st1 hv).1
        have hrem : remaining P st1 ≤ remaining P st := by
          unfold remaining
          refine Finset.card_le_card (Finset.sdiff_subset_sdiff (le_refl _) ?_)
          intro x hx
          rw [List.mem_toFinset] at hx ⊢
          exact hsub hx
        exact IHds st1 hf1 (fun x hx => hds x (by simp [hx]))
          (Nat.lt_of_le_of_lt hrem hlt) h

/-! ### The `any(visit(c) for c in self._forward)` driver on closed graphs -/

theorem anyVisit_go (f0 : List (α × List α)) (hT : TargetsIn f0) (P : List α)
    (hP : ∀ k ∈ dictKeys f0, k ∈ P) (fuel : Nat) :
    ∀ (ks : List α) (st : DfsSt α), st.fwd = f0 → st.path = [] → dfsInv f0 st →
      (∀ d ∈ ks, d ∈ dictKeys f0) → remaining P st < fuel →
      ∃ b, anyVisit fuel f0.length ks st = some (Except.ok b) ∧
        (b = true → ∃ v, Relation.TransGen (edgeRel f0) v v) ∧
        (b = false → ∃ stF, dfsInv f0 stF ∧ (∀ k ∈ ks, doneNode stF k) ∧
          (∀ u, doneNode st u → doneNode stF u)) := by
  intro ks
  induction ks with
  | nil =>
    intro st hf hpath hInv _ _
    refine ⟨false, ?_, by simp, ?_⟩
    · rw [anyVisit, hf, if_pos rfl]
    · intro _
      exact ⟨st, hInv, by simp, fun u hu => hu⟩
  | cons k ks IHks =>
    intro st hf hpath hInv hks hlt
    have hlen : st.fwd.length = f0.length := by rw [hf]
    match hv : visit fuel k st with
    | none =>
      exact absurd hv ((visit_fuel f0 hT P hP fuel).1 k st hf (hks k (by simp)) hlt)
    | some (true, st1) =>
      refine ⟨true, ?_, ?_, by simp⟩
      · rw [anyVisit, if_pos hlen, hv]
      · intro _
        refine (visit_sound f0 hT fuel).1 k st st1 hf (hks k (by simp)) ?_ ?_ hv
        · rw [hpath]; exact List.chain'_nil
        · intro hd tl hpth
          rw [hpath] at hpth
          cases hpth
    | some (false, st1) =>
      obtain ⟨hInv1, hdone1, hmono1⟩ :=
        (visit_complete f0 hT fuel).1 k st st1 hf (hks k (by simp)) hInv hv
      have hf1 : st1.fwd = f0 :=
        (visit_closed f0 hT fuel).1 k st false st1 hf (hks k (by simp)) hv
      have hpath1 : st1.path = [] := by
        rw [((visit_general fuel).1 k st false st1 hv).2.1 rfl, hpath]
      have hsub : st.visited ⊆ st1.visited := ((visit_general fuel).1 k st false st1 hv).1
      have hrem : remaining P st1 ≤ remaining P st := by
        unfold remaining
        refine Finset.card_le_card (Finset.sdiff_subset_sdiff (le_refl _) ?_)
        intro x hx
        rw [List.mem_toFinset] at hx ⊢
        exact hsub hx
      obtain ⟨b, heq, htrue, hfalse⟩ :=
        IHks st1 hf1 hpath1 hInv1 (fun x hx => hks x (by simp [hx]))
          (Nat.lt_of_le_of_lt hrem hlt)
      refine ⟨b, ?_, htrue, ?_⟩
      · rw [anyVisit, if_pos hlen, hv]; exact heq
      · intro hb
        obtain ⟨stF, hInvF, hdoneF, hmonoF⟩ := hfalse hb
        refine ⟨stF, hInvF, ?_, fun u hu => hmonoF u (hmono1 u hu)⟩
        intro x hx
        rcases List.mem_cons.mp hx with rfl | hx'
        · exact hmonoF x hdone1
        · exact hdoneF x hx'

/-- On a closed graph `has_cycles` raises nothing, runs to completion, and
returns `True` exactly when the recorded edge set contains a directed
cycle. -/
theorem hasCycles_closed (g : DepGraph α) (hC : g.Closed) :
    ∃ b, g.hasCycles = some (Except.ok b) ∧
      (b = true ↔ ∃ v, Relation.TransGen g.E v v) := by
  obtain ⟨b, heq, htrue, hfalse⟩ :=
    anyVisit_go g.fwd hC (nodePool g)
      (fun k hk => by
        unfold nodePool
        rw [List.mem_dedup]
        exact List.mem_append_left _ hk)
      ((nodePool g).length + 1) (dictKeys g.fwd) ⟨g.fwd, [], []⟩ rfl rfl
      ⟨fun u hu => absurd hu.1 (by simp), fun u hu => absurd hu.1 (by simp)⟩
      (fun d hd => hd)
      (by
        unfold remaining
        simp only [List.toFinset_nil, Finset.sdiff_empty]
        exact Nat.lt_succ_of_le (List.toFinset_card_le _))
  refine ⟨b, heq, ⟨htrue, ?_⟩⟩
  intro ⟨v, hcyc⟩
  cases b with
  | true => rfl
  | false =>
    exfalso
    obtain ⟨stF, hInvF, hdoneF, -⟩ := hfalse rfl
    obtain ⟨w, hvw, -⟩ := Relation.TransGen.head'_iff.mp hcyc
    have hvk : v ∈ dictKeys g.fwd := by
      refine dictGet_ne_nil_mem (l := g.fwd) (k := v) ?_
      intro hnil
      have : w ∈ dictGet g.fwd v := hvw
      rw [hnil] at this
      cases this
    exact hInvF.2 v (hdoneF v hvk) hcyc

theorem graphEdgesOnly_acyclic :
    ¬ ∃ v, Relation.TransGen graphEdgesOnly.E v v := by
  rintro ⟨v, hv⟩
  obtain ⟨w, hvw, hwv⟩ := Relation.TransGen.head'_iff.mp hv
  have hfwd : graphEdgesOnly.fwd = [("a", ["b"]), ("c", ["d"])] := rfl
  have hvw2 : edgeRel graphEdgesOnly.fwd v w := hvw
  have hwT : w = "b" ∨ w = "d" := by
    have := edgeRel_target_mem hvw2
    rw [hfwd] at this
    simpa using this
  rcases Relation.ReflTransGen.cases_head hwv with heq | ⟨z, hwz, -⟩
  · subst heq
    have hvK : w = "a" ∨ w = "c" := by
      have := edgeRel_source_mem hvw2
      rw [hfwd] at this
      simpa [dictKeys] using this
    rcases hwT with rfl | rfl <;> rcases hvK with h | h <;> simp at h
  · have hwz2 : edgeRel graphEdgesOnly.fwd w z := hwz
    have hwK : w = "a" ∨ w = "c" := by
      have := edgeRel_source_mem hwz2
      rw [hfwd] at this
      simpa [dictKeys] using this
    rcases hwT with rfl | rfl <;> rcases hwK with h | h <;> simp at h

/-! ## Claim C1 -/

/-- C1 counterexample: the graph built by `add_edge("a","b")` then
`add_edge("c","d")` alone (a legal sequence of `add_node`/`add_edge` calls)
has no directed cycle, yet `has_cycles` does not return `False` as the claim
requires: the `defaultdict` read `self._forward[component]` inserts entries
for the edge targets `"b"` and `"d"` while the `any(...)` generator is still
iterating `self._forward`, so CPython raises `RuntimeError: dictionary
changed size during iteration` (modelled as `Except.error ()`). -/
theorem C1_counterexample :
    (¬ ∃ v, Relation.TransGen graphEdgesOnly.E v v) ∧
    graphEdgesOnly.hasCycles = some (Except.error ()) :=
  ⟨graphEdgesOnly_acyclic, rfl⟩

/-- C1 (amended): for every graph in which each recorded edge target has a
`_forward` entry — as holds whenever `add_node` was called on both endpoints
before `add_edge`, the discipline every call site in the repository follows —
`has_cycles` returns normally and yields `True` iff the edge set contains a
directed cycle; in particular the 2-node mutual reference and the 3-node
cycle yield `True` and the acyclic diamond yields `False`.  (On graphs with
un-added edge targets, `has_cycles` can instead raise `RuntimeError`, per
the counterexample.) -/
theorem C1_hasCycles_iff_cycle :
    (∀ (g : DepGraph String), g.Closed →
      ∃ b, g.hasCycles = some (Except.ok b) ∧
        (b = true ↔ ∃ v, Relation.TransGen g.E v v)) ∧
    graphTwoMutual.hasCycles = some (Except.ok true) ∧
    graphThreeCycle.hasCycles = some (Except.ok true) ∧
    graphDiamond.hasCycles = some (Except.ok false) :=
  ⟨fun g hC => hasCycles_closed g hC, rfl, rfl, rfl⟩

/-- C1 witness: the amended theorem applied to the concrete diamond graph,
its closedness hypothesis discharged by evaluation. -/
theorem C1_witness :
    graphDiamond.Closed ∧
    ∃ b, graphDiamond.hasCycles = some (Except.ok b) ∧
      (b = true ↔ ∃ v, Relation.TransGen graphDiamond.E v v) :=
  ⟨by decide, C1_hasCycles_iff_cycle.1 graphDiamond (by decide)⟩

/-! ## Claim C4 -/

theorem foldl_applyOp_lockstep :
    ∀ (ops : List (GraphOp α)) (g : DepGraph α) (d : List α),
      dictKeys g.fwd = dictKeys g.rev →
      graphLockstep g →
      (∀ x ∈ d, x ∈ dictKeys g.fwd) →
      nodesFirst d ops →
      dictKeys (ops.foldl applyOp g).fwd = dictKeys (ops.foldl applyOp g).rev ∧
      graphLockstep (ops.foldl applyOp g) := by
  intro ops
  induction ops with
  | nil =>
    intro g d hkeys hlock _ _
    exact ⟨hkeys, hlock⟩
  | cons op rest IH =>
    intro g d hkeys hlock hd hnf
    cases op with
    | node c =>
      have hnf' : nodesFirst (c :: d) rest := hnf
      simp only [List.foldl_cons]
      by_cases hc : c ∈ dictKeys g.fwd
      · have happly : applyOp g (.node c) = g := by
          simp [applyOp, DepGraph.addNode, hc]
        rw [happly]
        refine IH g (c :: d) hkeys hlock ?_ hnf'
        intro x hx
        rcases List.mem_cons.mp hx with rfl | hx'
        · exact hc
        · exact hd x hx'
      · have hcrev : c ∉ dictKeys g.rev := by rw [← hkeys]; exact hc
        have happly : applyOp g (.node c) =
            DepGraph.mk (g.fwd ++ [(c, [])]) (dictSetEmpty g.rev c) := by
          simp [applyOp, DepGraph.addNode, hc]
        rw [happly]
        have hkeysF : dictKeys (g.fwd ++ [(c, ([] : List α))]) = dictKeys g.fwd ++ [c] := by
          unfold dictKeys
          rw [List.map_append]
          rfl
        have hkeys' : dictKeys (g.fwd ++ [(c, ([] : List α))])
            = dictKeys (dictSetEmpty g.rev c) := by
          rw [hkeysF, dictKeys_dictSetEmpty_fresh hcrev, hkeys]
        have hlock' : graphLockstep (DepGraph.mk (g.fwd ++ [(c, [])]) (dictSetEmpty g.rev c)) := by
          intro a b
          show b ∈ dictGet (g.fwd ++ [(c, [])]) a ↔ a ∈ dictGet (dictSetEmpty g.rev c) b
          rw [dictGet_append_single [] hc a, dictGet_dictSetEmpty]
          by_cases ha : a = c
          · rw [if_pos ha]
            by_cases hb : b = c
            · rw [if_pos hb]; simp
            · rw [if_neg hb]
              constructor
              · intro h; cases h
              · intro h
                exfalso
                have hbc : b ∈ dictGet g.fwd c := (hlock c b).mpr (ha ▸ h)
                rw [dictGet_eq_nil_of_not_mem hc] at hbc
                cases hbc
          · rw [if_neg ha]
            by_cases hb : b = c
            · rw [if_pos hb]
              constructor
              · intro h
                exfalso
                have hac : a ∈ dictGet g.rev c := (hlock a c).mp (hb ▸ h)
                rw [dictGet_eq_nil_of_not_mem hcrev] at hac
                cases hac
              · intro h; cases h
            · rw [if_neg hb]
              exact hlock a b
        refine IH _ (c :: d) hkeys' hlock' ?_ hnf'
        intro x hx
        show x ∈ dictKeys (g.fwd ++ [(c, [])])
        rw [hkeysF]
        rcases List.mem_cons.mp hx with rfl | hx'
        · simp
        · exact List.mem_append_left _ (hd x hx')
    | edge a b =>
      obtain ⟨ha, hb, hnf'⟩ := hnf
      have haK : a ∈ dictKeys g.fwd := hd a ha
      have hbK : b ∈ dictKeys g.fwd := hd b hb
      have haR : a ∈ dictKeys g.rev := hkeys ▸ haK
      have hbR : b ∈ dictKeys g.rev := hkeys ▸ hbK
      simp only [List.foldl_cons]
      have happly : applyOp g (.edge a b) =
          DepGraph.mk (dictAdd g.fwd a b) (dictAdd g.rev b a) := rfl
      rw [happly]
      have hkeys' : dictKeys (dictAdd g.fwd a b) = dictKeys (dictAdd g.rev b a) := by
        rw [dictKeys_dictAdd_mem b haK, dictKeys_dictAdd_mem a hbR, hkeys]
      have hlock' : graphLockstep (DepGraph.mk (dictAdd g.fwd a b) (dictAdd g.rev b a)) := by
        intro x y
        show y ∈ dictGet (dictAdd g.fwd a b) x ↔ x ∈ dictGet (dictAdd g.rev b a) y
        rw [dictGet_dictAdd, dictGet_dictAdd]
        by_cases hx : x = a
        · rw [if_pos hx]
          by_cases hy : y = b
          · rw [if_pos hy]
            subst hx; subst hy
            simp [mem_setAdd]
          · rw [if_neg hy, mem_setAdd]
            subst hx
            constructor
            · rintro (h | rfl)
              · exact (hlock x y).mp h
              · exact absurd rfl hy
            · intro h
              exact Or.inl ((hlock x y).mpr h)
        · rw [if_neg hx]
          by_cases hy : y = b
          · rw [if_pos hy, mem_setAdd]
            subst hy
            constructor
            · intro h
              exact Or.inl ((hlock x y).mp h)
            · rintro (h | rfl)
              · exact (hlock x y).mpr h
              · exact absurd rfl hx
          · rw [if_neg hy]
            exact hlock x y
      refine IH _ d hkeys' hlock' ?_ hnf'
      intro x hx
      show x ∈ dictKeys (dictAdd g.fwd a b)
      rw [dictKeys_dictAdd_mem b haK]
      exact hd x hx

/-- C4 counterexample: `add_edge("a","b")` followed by `add_node("b")` — a
legal call sequence — leaves `"b"` recorded as a dependency of `"a"` in the
forward map while the reverse map no longer records `"a"` as a dependent of
`"b"`, because `add_node`'s `self._reverse[component] = set()` assignment
wipes the dependents that `add_edge` had stored for a node that lacked a
forward entry.  This violates the claimed forward/reverse lock-step. -/
theorem C4_counterexample :
    "b" ∈ graphWipe.getDependencies "a" ∧ "a" ∉ graphWipe.getDependents "b" := by
  decide

/-- C4 (amended): after any sequence of `add_node`/`add_edge` calls in which
each `add_edge`'s endpoints were previously passed to `add_node` (the
discipline every call site in the repository follows), the forward and
reverse maps are in lock-step, and every node referenced as an endpoint of
an edge has an entry in both adjacency maps. -/
theorem C4_forward_reverse_lockstep :
    ∀ (ops : List (GraphOp String)), nodesFirst [] ops →
      (∀ a b, b ∈ (applyOps ops).getDependencies a ↔ a ∈ (applyOps ops).getDependents b) ∧
      (∀ a b, b ∈ (applyOps ops).getDependencies a →
        a ∈ dictKeys (applyOps ops).fwd ∧ a ∈ dictKeys (applyOps ops).rev ∧
        b ∈ dictKeys (applyOps ops).fwd ∧ b ∈ dictKeys (applyOps ops).rev) := by
  intro ops hnf
  obtain ⟨hkeys, hlock⟩ := foldl_applyOp_lockstep ops DepGraph.empty [] rfl
    (fun a b => by
      show b ∈ dictGet [] a ↔ a ∈ dictGet [] b
      rw [dictGet_nil, dictGet_nil]
      simp)
    (by simp) hnf
  refine ⟨hlock, ?_⟩
  intro a b hab
  have haF : a ∈ dictKeys (applyOps ops).fwd := edgeRel_source_mem hab
  have hbR : b ∈ dictKeys (applyOps ops).rev := edgeRel_source_mem ((hlock a b).mp hab)
  exact ⟨haF, hkeys ▸ haF, hkeys ▸ hbR, hbR⟩

/-- C4 witness: the amended theorem applied to the concrete sequence
`add_node("a"); add_node("b"); add_edge("a","b")`. -/
theorem C4_witness :
    nodesFirst [] [GraphOp.node "a", GraphOp.node "b", GraphOp.edge "a" "b"] ∧
    ((∀ a b, b ∈ (applyOps [GraphOp.node "a", GraphOp.node "b",
        GraphOp.edge "a" "b"]).getDependencies a ↔
      a ∈ (applyOps [GraphOp.node "a", GraphOp.node "b",
        GraphOp.edge "a" "b"]).getDependents b) ∧
    (∀ a b, b ∈ (applyOps [GraphOp.node "a", GraphOp.node "b",
        GraphOp.edge "a" "b"]).getDependencies a →
      a ∈ dictKeys (applyOps [GraphOp.node "a", GraphOp.node "b",
        GraphOp.edge "a" "b"]).fwd ∧
      a ∈ dictKeys (applyOps [GraphOp.node "a", GraphOp.node "b",
        GraphOp.edge "a" "b"]).rev ∧
      b ∈ dictKeys (applyOps [GraphOp.node "a", GraphOp.node "b",
        GraphOp.edge "a" "b"]).fwd ∧
      b ∈ dictKeys (applyOps [GraphOp.node "a", GraphOp.node "b",
        GraphOp.edge "a" "b"]).rev)) :=
  ⟨by decide, C4_forward_reverse_lockstep _ (by decide)⟩

/-! ## Claim C3 -/

theorem mem_addEdge_fwd {g : DepGraph α} {x y a b : α} :
    b ∈ dictGet (g.addEdge x y).fwd a ↔ b ∈ dictGet g.fwd a ∨ (a = x ∧ b = y) := by
  show b ∈ dictGet (dictAdd g.fwd x y) a ↔ _
  rw [dictGet_dictAdd]
  by_cases hax : a = x
  · subst hax
    rw [if_pos rfl, mem_setAdd]
    constructor
    · rintro (h | rfl)
      · exact Or.inl h
      · exact Or.inr ⟨rfl, rfl⟩
    · rintro (h | ⟨-, rfl⟩)
      · exact Or.inl h
      · exact Or.inr rfl
  · rw [if_neg hax]
    constructor
    · exact Or.inl
    · rintro (h | ⟨rfl, rfl⟩)
      · exact h
      · exact absurd rfl hax

theorem resolveDep_foldl_mem :
    ∀ (others : List Component) (g : DepGraph String) (cname s : String) (a b : String),
      b ∈ dictGet ((others.foldl (fun g2 other =>
          if pyStartswith other.package s then g2.addEdge cname other.name else g2) g).fwd) a ↔
        b ∈ dictGet g.fwd a ∨
          (a = cname ∧ ∃ o ∈ others, b = o.name ∧ pyStartswith o.package s = true) := by
  intro others
  induction others with
  | nil =>
    intro g cname s a b
    simp
  | cons o os IH =>
    intro g cname s a b
    rw [List.foldl_cons]
    by_cases ho : pyStartswith o.package s = true
    · rw [if_pos ho, IH, mem_addEdge_fwd]
      constructor
      · rintro ((h | ⟨rfl, rfl⟩) | ⟨rfl, o2, ho2, rfl, hs2⟩)
        · exact Or.inl h
        · exact Or.inr ⟨rfl, o, List.mem_cons_self .., rfl, ho⟩
        · exact Or.inr ⟨rfl, o2, List.mem_cons_of_mem _ ho2, rfl, hs2⟩
      · rintro (h | ⟨rfl, o2, ho2, rfl, hs2⟩)
        · exact Or.inl (Or.inl h)
        · rcases List.mem_cons.mp ho2 with rfl | ho3
          · exact Or.inl (Or.inr ⟨rfl, rfl⟩)
          · exact Or.inr ⟨rfl, o2, ho3, rfl, hs2⟩
    · rw [if_neg ho, IH]
      constructor
      · rintro (h | ⟨rfl, o2, ho2, rfl, hs2⟩)
        · exact Or.inl h
        · exact Or.inr ⟨rfl, o2, List.mem_cons_of_mem _ ho2, rfl, hs2⟩
      · rintro (h | ⟨rfl, o2, ho2, rfl, hs2⟩)
        · exact Or.inl h
        · rcases List.mem_cons.mp ho2 with rfl | ho3
          · exact absurd hs2 ho
          · exact Or.inr ⟨rfl, o2, ho3, rfl, hs2⟩

theorem resolveComp_foldlM_mem :
    ∀ (deps : List Json) (g : DepGraph String) (cname : String) (comps : List Component),
      (∀ d ∈ deps, ∃ s, d = Json.str s) →
      ∃ g', deps.foldlM (fun g2 dep => resolveDep comps cname dep g2) g = some g' ∧
        ∀ a b, b ∈ dictGet g'.fwd a ↔
          b ∈ dictGet g.fwd a ∨
            (a = cname ∧ ∃ s, Json.str s ∈ deps ∧
              ∃ o ∈ comps, b = o.name ∧ pyStartswith o.package s = true) := by
  intro deps
  induction deps with
  | nil =>
    intro g cname comps _
    refine ⟨g, rfl, ?_⟩
    intro a b
    simp
  | cons d ds IH =>
    intro g cname comps hstr
    obtain ⟨s, rfl⟩ := hstr d (List.mem_cons_self ..)
    obtain ⟨g', heq, hmem⟩ :=
      IH (comps.foldl (fun g2 other =>
          if pyStartswith other.package s then g2.addEdge cname other.name else g2) g)
        cname comps (fun x hx => hstr x (List.mem_cons_of_mem _ hx))
    refine ⟨g', ?_, ?_⟩
    · rw [List.foldlM_cons]
      show (resolveDep comps cname (Json.str s) g) >>= _ = some g'
      rw [show resolveDep comps cname (Json.str s) g = some (comps.foldl (fun g2 other =>
          if pyStartswith other.package s then g2.addEdge cname other.name else g2) g) from rfl]
      simpa using heq
    · intro a b
      rw [hmem a b, resolveDep_foldl_mem]
      constructor
      · rintro ((h | ⟨rfl, o, ho, rfl, hs⟩) | ⟨rfl, s2, hs2, o, ho, rfl, hso⟩)
        · exact Or.inl h
        · exact Or.inr ⟨rfl, s, List.mem_cons_self .., o, ho, rfl, hs⟩
        · exact Or.inr ⟨rfl, s2, List.mem_cons_of_mem _ hs2, o, ho, rfl, hso⟩
      · rintro (h | ⟨rfl, s2, hs2, o, ho, rfl, hso⟩)
        · exact Or.inl (Or.inl h)
        · rcases List.mem_cons.mp hs2 with heq2 | hs3
          · have hss : s2 = s := by injection heq2
            subst hss
            exact Or.inl (Or.inr ⟨rfl, o, ho, rfl, hso⟩)
          · exact Or.inr ⟨rfl, s2, hs3, o, ho, rfl, hso⟩

theorem resolveEdges_foldlM_mem :
    ∀ (todo : List Component) (g : DepGraph String) (comps : List Component),
      (∀ c ∈ todo, ∀ d ∈ c.dependencies, ∃ s, d = Json.str s) →
      ∃ g', todo.foldlM (fun g2 c => resolveComp comps c g2) g = some g' ∧
        ∀ a b, b ∈ dictGet g'.fwd a ↔
          b ∈ dictGet g.fwd a ∨
            ∃ c ∈ todo, a = c.name ∧ ∃ s, Json.str s ∈ c.dependencies ∧
              ∃ o ∈ comps, b = o.name ∧ pyStartswith o.package s = true := by
  intro todo
  induction todo with
  | nil =>
    intro g comps _
    refine ⟨g, rfl, ?_⟩
    intro a b
    simp
  | cons c cs IH =>
    intro g comps hstr
    obtain ⟨g1, heq1, hmem1⟩ :=
      resolveComp_foldlM_mem c.dependencies g c.name comps
        (hstr c (List.mem_cons_self ..))
    obtain ⟨g', heq, hmem⟩ :=
      IH g1 comps (fun x hx => hstr x (List.mem_cons_of_mem _ hx))
    refine ⟨g', ?_, ?_⟩
    · rw [List.foldlM_cons]
      show resolveComp comps c g >>= _ = some g'
      rw [show resolveComp comps c g =
          c.dependencies.foldlM (fun g2 dep => resolveDep comps c.name dep g2) g from rfl]
      rw [heq1]
      simpa using heq
    · intro a b
      rw [hmem a b, hmem1 a b]
      constructor
      · rintro ((h | ⟨rfl, s, hs, o, ho, rfl, hso⟩) | ⟨c2, hc2, rfl, s, hs, o, ho, rfl, hso⟩)
        · exact Or.inl h
        · exact Or.inr ⟨c, List.mem_cons_self .., rfl, s, hs, o, ho, rfl, hso⟩
        · exact Or.inr ⟨c2, List.mem_cons_of_mem _ hc2, rfl, s, hs, o, ho, rfl, hso⟩
      · rintro (h | ⟨c2, hc2, rfl, s, hs, o, ho, rfl, hso⟩)
        · exact Or.inl (Or.inl h)
        · rcases List.mem_cons.mp hc2 with rfl | hc3
          · exact Or.inl (Or.inr ⟨rfl, s, hs, o, ho, rfl, hso⟩)
          · exact Or.inr ⟨c2, hc3, rfl, s, hs, o, ho, rfl, hso⟩

/-- C3 counterexample: a single discovered component with package `a.b` and
raw dependency `a.b` (as arises when one of its files imports a sibling type
from its own package) gains an edge to itself — the resolver iterates over
`components.values()` with no `other is not component` guard, contradicting
the claim that only OTHER components receive edges and that no component
gains a self-edge. -/
theorem C3_counterexample :
    ∃ g', resolveEdges [compSelf] DepGraph.empty = some g' ∧
      "b" ∈ g'.getDependencies "b" :=
  ⟨_, rfl, by decide⟩

/-- C3 (amended): during edge resolution, for each discovered component and
each raw string dependency in its dependency set, a directed edge is added
to EVERY discovered component — the component itself included, there is no
self-exclusion — whose package identifier starts with the dependency string
(plain prefix match); in particular a raw dependency `com.acme.shipping`
produces an edge to the component with package `com.acme.shipping.core`
(and a self-edge on the `com.acme.shipping` component itself). -/
theorem C3_prefix_edge_resolution :
    (∀ (comps : List Component) (g : DepGraph String),
      (∀ c ∈ comps, ∀ d ∈ c.dependencies, ∃ s, d = Json.str s) →
      ∃ g', resolveEdges comps g = some g' ∧
        ∀ a b, b ∈ g'.getDependencies a ↔
          b ∈ g.getDependencies a ∨
            ∃ c ∈ comps, a = c.name ∧ ∃ s, Json.str s ∈ c.dependencies ∧
              ∃ o ∈ comps, b = o.name ∧ pyStartswith o.package s = true) ∧
    (∃ g2, resolveEdges [compShipping, compShippingCore] DepGraph.empty = some g2 ∧
      "core" ∈ g2.getDependencies "shipping" ∧
      "shipping" ∈ g2.getDependencies "shipping") :=
  ⟨fun comps g hstr => resolveEdges_foldlM_mem comps g comps hstr,
   ⟨_, rfl, by decide, by decide⟩⟩

/-- C3 witness: the amended characterization applied to the concrete
shipping/core component pair. -/
theorem C3_witness :
    (∀ c ∈ [compShipping, compShippingCore], ∀ d ∈ c.dependencies,
      ∃ s, d = Json.str s) ∧
    (∃ g', resolveEdges [compShipping, compShippingCore] DepGraph.empty = some g' ∧
      ∀ a b, b ∈ g'.getDependencies a ↔
        b ∈ (DepGraph.empty (α := String)).getDependencies a ∨
          ∃ c ∈ [compShipping, compShippingCore], a = c.name ∧
            ∃ s, Json.str s ∈ c.dependencies ∧
              ∃ o ∈ [compShipping, compShippingCore], b = o.name ∧
                pyStartswith o.package s = true) := by
  have hstr : ∀ c ∈ [compShipping, compShippingCore], ∀ d ∈ c.dependencies,
      ∃ s, d = Json.str s := by
    intro c hc d hd
    rcases List.mem_cons.mp hc with rfl | hc2
    · simp only [compShipping, List.mem_singleton] at hd
      exact ⟨"com.acme.shipping", hd⟩
    · rcases List.mem_cons.mp hc2 with rfl | hc3
      · simp [compShippingCore] at hd
      · cases hc3
  exact ⟨hstr, C3_prefix_edge_resolution.1 [compShipping, compShippingCore]
    DepGraph.empty hstr⟩

/-! ## Claim C7 -/

theorem evictLoop_spec (maxSize : Nat) :
    ∀ (l : List (String × Nat × Nat)),
      evictLoop maxSize l (totalSize l) = l.take (evictLoop maxSize l (totalSize l)).length ∧
      totalSize (l.drop (evictLoop maxSize l (totalSize l)).length) ≤ maxSize ∧
      (∀ k, k < (evictLoop maxSize l (totalSize l)).length → maxSize < totalSize (l.drop k)) := by
  intro l
  induction l with
  | nil =>
    refine ⟨rfl, ?_, by simp [evictLoop]⟩
    show totalSize _ ≤ maxSize
    simp [totalSize, evictLoop]
  | cons f fs IH =>
    have htot : totalSize (f :: fs) = f.2.1 + totalSize fs := by
      simp [totalSize]
    have hstep0 : evictLoop maxSize (f :: fs) (totalSize (f :: fs)) =
        if totalSize (f :: fs) ≤ maxSize then []
        else f :: evictLoop maxSize fs (totalSize (f :: fs) - f.2.1) := rfl
    by_cases hle : totalSize (f :: fs) ≤ maxSize
    · have hz : evictLoop maxSize (f :: fs) (totalSize (f :: fs)) = [] := by
        rw [hstep0, if_pos hle]
      rw [hz]
      exact ⟨rfl, by simpa using hle, by simp⟩
    · have hstep : evictLoop maxSize (f :: fs) (totalSize (f :: fs)) =
          f :: evictLoop maxSize fs (totalSize fs) := by
        rw [hstep0, if_neg hle, htot, Nat.add_sub_cancel_left]
      obtain ⟨h1, h2, h3⟩ := IH
      refine ⟨?_, ?_, ?_⟩
      · rw [hstep]
        simp only [List.length_cons, List.take_succ_cons]
        exact congrArg (f :: ·) h1
      · rw [hstep]
        simp only [List.length_cons, List.drop_succ_cons]
        exact h2
      · rw [hstep]
        intro k hk
        match k with
        | 0 => simpa using Nat.lt_of_not_le hle
        | k + 1 =>
          rw [List.drop_succ_cons]
          exact h3 k (Nat.lt_of_succ_lt_succ (by simpa using hk))

/-- C7: eviction runs before each save; it removes nothing when the cache
directory's total size is within the byte budget, otherwise it removes a
prefix of the modification-time-sorted file list (so strictly
oldest-first), stops as soon as the remaining total is at or below budget,
and every file it does remove was removed while the running total still
exceeded the budget — no unnecessary removal. -/
theorem C7_eviction_oldest_first :
    ∀ (files : List (String × Nat × Nat)) (maxSize : Nat),
      cleanupOldCache files maxSize
        = (sortByMtime files).take (cleanupOldCache files maxSize).length ∧
      (∀ f ∈ cleanupOldCache files maxSize,
        ∀ f2 ∈ (sortByMtime files).drop (cleanupOldCache files maxSize).length,
          f.2.2 ≤ f2.2.2) ∧
      totalSize ((sortByMtime files).drop (cleanupOldCache files maxSize).length) ≤ maxSize ∧
      (totalSize files ≤ maxSize → cleanupOldCache files maxSize = []) ∧
      (∀ k, k < (cleanupOldCache files maxSize).length →
        maxSize < totalSize ((sortByMtime files).drop k)) := by
  intro files maxSize
  have hperm : List.Perm (sortByMtime files) files := List.perm_insertionSort _ files
  have htots : totalSize (sortByMtime files) = totalSize files := by
    unfold totalSize
    exact (hperm.map _).sum_eq
  by_cases h : totalSize files > maxSize
  · have hcl : cleanupOldCache files maxSize
        = evictLoop maxSize (sortByMtime files) (totalSize (sortByMtime files)) := by
      unfold cleanupOldCache
      rw [if_pos h, htots]
    obtain ⟨h1, h2, h3⟩ := evictLoop_spec maxSize (sortByMtime files)
    have hsorted : List.Pairwise (fun f1 f2 => f1.2.2 ≤ f2.2.2) (sortByMtime files) :=
      List.sorted_insertionSort _ files
    refine ⟨by rw [hcl]; exact h1, ?_, by rw [hcl]; exact h2, ?_, ?_⟩
    · intro f hf f2 hf2
      rw [hcl] at hf hf2
      rw [h1] at hf
      have hx : List.Pairwise (fun f1 f2 => f1.2.2 ≤ f2.2.2)
          ((sortByMtime files).take
            (evictLoop maxSize (sortByMtime files) (totalSize (sortByMtime files))).length ++
           (sortByMtime files).drop
            (evictLoop maxSize (sortByMtime files) (totalSize (sortByMtime files))).length) := by
        rw [List.take_append_drop]
        exact hsorted
      exact (List.pairwise_append.mp hx).2.2 f hf f2 hf2
    · intro hle
      exact absurd h (Nat.not_lt.mpr hle)
    · intro k hk
      rw [hcl] at hk
      exact h3 k hk
  · have hcl : cleanupOldCache files maxSize = [] := by
      unfold cleanupOldCache
      rw [if_neg h]
    refine ⟨by rw [hcl]; rfl, ?_, ?_, fun _ => hcl, ?_⟩
    · intro f hf
      rw [hcl] at hf
      cases hf
    · rw [hcl]
      simp only [List.length_nil, List.drop_zero]
      rw [htots]
      exact Nat.le_of_not_lt h
    · intro k hk
      rw [hcl] at hk
      simp at hk

/-- C7 witness: on a 150-byte cache directory with a 100-byte budget,
eviction removes exactly the oldest file, and the general theorem applies
at that input. -/
theorem C7_witness :
    cleanupOldCache evFiles 100 = [("old", 60, 10)] ∧
    (cleanupOldCache evFiles 100
        = (sortByMtime evFiles).take (cleanupOldCache evFiles 100).length ∧
      (∀ f ∈ cleanupOldCache evFiles 100,
        ∀ f2 ∈ (sortByMtime evFiles).drop (cleanupOldCache evFiles 100).length,
          f.2.2 ≤ f2.2.2) ∧
      totalSize ((sortByMtime evFiles).drop (cleanupOldCache evFiles 100).length) ≤ 100 ∧
      (totalSize evFiles ≤ 100 → cleanupOldCache evFiles 100 = []) ∧
      (∀ k, k < (cleanupOldCache evFiles 100).length →
        100 < totalSize ((sortByMtime evFiles).drop k))) :=
  ⟨by decide, C7_eviction_oldest_first evFiles 100⟩

/-! ## Claim C9 -/

theorem mem_foldl_depAdd (caps : List (List Char)) (init : List String) (d : String) :
    d ∈ caps.foldl
        (fun deps cap =>
          match depOfImport cap with
          | some v => setAdd deps v
          | none => deps)
        init ↔
      d ∈ init ∨ ∃ cap ∈ caps, depOfImport cap = some d := by
  induction caps generalizing init with
  | nil => simp
  | cons c cs IH =>
    rw [List.foldl_cons]
    cases hc : depOfImport c with
    | none =>
      rw [IH]
      constructor
      · rintro (h | ⟨cap, hcap, hd⟩)
        · exact Or.inl h
        · exact Or.inr ⟨cap, List.mem_cons_of_mem _ hcap, hd⟩
      · rintro (h | ⟨cap, hcap, hd⟩)
        · exact Or.inl h
        · rcases List.mem_cons.mp hcap with rfl | hcap2
          · rw [hc] at hd; cases hd
          · exact Or.inr ⟨cap, hcap2, hd⟩
    | some v =>
      rw [IH]
      constructor
      · rintro (h | ⟨cap, hcap, hd⟩)
        · rcases mem_setAdd.mp h with h2 | rfl
          · exact Or.inl h2
          · exact Or.inr ⟨c, List.mem_cons_self .., hc⟩
        · exact Or.inr ⟨cap, List.mem_cons_of_mem _ hcap, hd⟩
      · rintro (h | ⟨cap, hcap, hd⟩)
        · exact Or.inl (mem_setAdd.mpr (Or.inl h))
        · rcases List.mem_cons.mp hcap with rfl | hcap2
          · rw [hc] at hd
            refine Or.inl (mem_setAdd.mpr (Or.inr ?_))
            injection hd with hvd
            exact hvd.symm
          · exact Or.inr ⟨cap, hcap2, hd⟩

/-- C9: an import whose identifier has a single dotted segment contributes
no recorded dependency; exactly the imports with at least two segments
contribute, each recording the identifier with its last segment removed.
Concretely, `import foo;` records nothing, while `import a.b.C;` and the
wildcard `import a.b.*;` both record `a.b`. -/
theorem C9_single_segment_import_dropped :
    (∀ (content : String) (d : String),
      d ∈ findDependencies content ↔
        ∃ cap ∈ scanImports content.data,
          (pySplitDot (String.mk cap)).length > 1 ∧
          d = pyJoinDot (pySplitDot (String.mk cap)).dropLast) ∧
    findDependencies "import foo;" = [] ∧
    findDependencies "import a.b.C;" = ["a.b"] ∧
    findDependencies "import a.b.*;" = ["a.b"] := by
  refine ⟨?_, rfl, rfl, rfl⟩
  intro content d
  unfold findDependencies
  rw [mem_foldl_depAdd]
  constructor
  · rintro (h | ⟨cap, hcap, hd⟩)
    · cases h
    · refine ⟨cap, hcap, ?_⟩
      unfold depOfImport at hd
      by_cases hl : (pySplitDot (String.mk cap)).length > 1
      · rw [if_pos hl] at hd
        exact ⟨hl, (Option.some.injEq .. ▸ hd).symm⟩
      · rw [if_neg hl] at hd
        cases hd
  · rintro ⟨cap, hcap, hl, rfl⟩
    refine Or.inr ⟨cap, hcap, ?_⟩
    unfold depOfImport
    rw [if_pos hl]

/-- C9 witness: the characterization instantiated at `import a.b;` for the
dependency `a`. -/
theorem C9_witness :
    ("a" ∈ findDependencies "import a.b;" ↔
      ∃ cap ∈ scanImports "import a.b;".data,
        (pySplitDot (String.mk cap)).length > 1 ∧
        "a" = pyJoinDot (pySplitDot (String.mk cap)).dropLast) ∧
    "a" ∈ findDependencies "import a.b;" :=
  ⟨C9_single_segment_import_dropped.1 "import a.b;" "a", by decide⟩

/-! ## Claims C8 and C10 -/

theorem buildComponent_facts {fsE : String → Bool} {t : Bool} {p : String}
    {files : List JFile} {c : Component} (h : buildComponent fsE t p files = some c) :
    c.package = p ∧
    c.name = (if t then lastSegment p ++ "Test" else lastSegment p) ∧
    c.is_test = Json.bool t ∧
    c.source_files =
      Json.arr ((files.map (fun f => pathJoin f.1 f.2.1)).map Json.str) := by
  cases files with
  | nil => cases h
  | cons f0 fs2 =>
    rw [show buildComponent fsE t p (f0 :: fs2) =
        (if (if t then lastSegment p ++ "Test" else lastSegment p) ≠ "" ∧ p ≠ "" ∧
            fsE (pathDirname (pathJoin f0.1 f0.2.1)) = true then
          some ⟨(if t then lastSegment p ++ "Test" else lastSegment p), p,
            pathDirname (pathJoin f0.1 f0.2.1),
            Json.arr (((f0 :: fs2).map (fun f => pathJoin f.1 f.2.1)).map Json.str),
            ((f0 :: fs2).foldl
              (fun acc f => (findDependencies f.2.2).foldl setAdd acc) []).map Json.str,
            Json.bool t, aggMetadata (f0 :: fs2)⟩
        else none) from rfl] at h
    by_cases hcond : (if t then lastSegment p ++ "Test" else lastSegment p) ≠ "" ∧ p ≠ "" ∧
        fsE (pathDirname (pathJoin f0.1 f0.2.1)) = true
    · rw [if_pos hcond] at h
      injection h with h2
      subst h2
      exact ⟨rfl, rfl, rfl, rfl⟩
    · rw [if_neg hcond] at h
      cases h

theorem assocFind_assocAppend {β : Type} (l : List (String × List β)) (k : String) (v : β)
    (x : String) :
    assocFind (assocAppend l k v) x =
      if x = k then some (((assocFind l k).getD []) ++ [v]) else assocFind l x := by
  induction l with
  | nil =>
    show assocFind [(k, [v])] x = _
    by_cases hx : x = k
    · subst hx; simp [assocFind]
    · simp [assocFind, hx, Ne.symm hx]
  | cons kv rest IH =>
    obtain ⟨k0, vs⟩ := kv
    show assocFind
        (if k0 = k then (k0, vs ++ [v]) :: rest else (k0, vs) :: assocAppend rest k v) x = _
    by_cases h0 : k0 = k
    · subst h0
      by_cases hx : x = k0
      · subst hx; simp [assocFind]
      · simp [assocFind, hx, Ne.symm hx]
    · by_cases hx : x = k0
      · subst hx; simp [assocFind, h0]
      · simp [assocFind, h0, hx, Ne.symm hx, IH]

theorem groupByPackage_mono :
    ∀ (files : List JFile) (acc : List (String × List JFile)) (p : String)
      (gs0 : List JFile),
      assocFind acc p = some gs0 →
      ∃ gs1, assocFind (files.foldl (fun a f =>
          match extractPackage f.2.2 with
          | none => a
          | some q => assocAppend a q f) acc) p = some gs1 ∧
        ∀ x ∈ gs0, x ∈ gs1 := by
  intro files
  induction files with
  | nil =>
    intro acc p gs0 h
    exact ⟨gs0, h, fun x hx => hx⟩
  | cons f0 fs2 IH =>
    intro acc p gs0 h
    simp only [List.foldl_cons]
    cases hq : extractPackage f0.2.2 with
    | none =>
      exact IH acc p gs0 h
    | some q =>
      by_cases hpq : p = q
      · subst hpq
        have h1 : assocFind (assocAppend acc p f0) p = some (gs0 ++ [f0]) := by
          rw [assocFind_assocAppend, if_pos rfl, h]
          rfl
        obtain ⟨gs1, hg, hsub⟩ := IH _ p _ h1
        exact ⟨gs1, hg, fun x hx => hsub x (List.mem_append_left _ hx)⟩
      · have h1 : assocFind (assocAppend acc q f0) p = some gs0 := by
          rw [assocFind_assocAppend, if_neg hpq]
          exact h
        exact IH _ p gs0 h1

theorem groupByPackage_complete :
    ∀ (files : List JFile) (acc : List (String × List JFile)) (p : String) (f : JFile),
      f ∈ files → extractPackage f.2.2 = some p →
      ∀ gs, assocFind (files.foldl (fun a f2 =>
          match extractPackage f2.2.2 with
          | none => a
          | some q => assocAppend a q f2) acc) p = some gs →
        f ∈ gs := by
  intro files
  induction files with
  | nil =>
    intro acc p f hf
    cases hf
  | cons f0 fs2 IH =>
    intro acc p f hf hp gs hgs
    simp only [List.foldl_cons] at hgs
    rcases List.mem_cons.mp hf with rfl | hf2
    · have hstep : (match extractPackage f.2.2 with
          | none => acc
          | some q => assocAppend acc q f) = assocAppend acc p f := by rw [hp]
      rw [hstep] at hgs
      have hacc : assocFind (assocAppend acc p f) p
          = some ((((assocFind acc p).getD [])) ++ [f]) := by
        rw [assocFind_assocAppend, if_pos rfl]
      obtain ⟨gs1, hg1, hsub⟩ := groupByPackage_mono fs2 _ p _ hacc
      rw [hg1] at hgs
      injection hgs with hgs2
      subst hgs2
      exact hsub f (List.mem_append_right _ (List.mem_singleton.mpr rfl))
    · cases hq : extractPackage f0.2.2 with
      | none =>
        rw [hq] at hgs
        exact IH acc p f hf2 hp gs hgs
      | some q =>
        rw [hq] at hgs
        exact IH (assocAppend acc q f0) p f hf2 hp gs hgs

theorem assocAppend_keys {β : Type} (l : List (String × List β)) (k : String) (v : β) :
    (assocAppend l k v).map (fun e => e.1) =
      if k ∈ l.map (fun e => e.1) then l.map (fun e => e.1)
      else l.map (fun e => e.1) ++ [k] := by
  induction l with
  | nil => simp [assocAppend]
  | cons kv rest IH =>
    obtain ⟨k0, vs⟩ := kv
    by_cases h0 : k0 = k
    · subst h0
      simp [assocAppend]
    · by_cases hk : k ∈ rest.map (fun e => e.1) <;>
        simp [assocAppend, h0, Ne.symm h0, IH, hk]

theorem groupFold_keys_nodup :
    ∀ (files : List JFile) (acc : List (String × List JFile)),
      ((acc.map (fun e => e.1)).Nodup) →
      (((files.foldl (fun a f =>
          match extractPackage f.2.2 with
          | none => a
          | some q => assocAppend a q f) acc).map (fun e => e.1)).Nodup) := by
  intro files
  induction files with
  | nil =>
    intro acc h
    exact h
  | cons f0 fs2 IH =>
    intro acc h
    simp only [List.foldl_cons]
    cases hq : extractPackage f0.2.2 with
    | none =>
      exact IH acc h
    | some q =>
      refine IH (assocAppend acc q f0) ?_
      rw [assocAppend_keys]
      by_cases hk : q ∈ acc.map (fun e => e.1)
      · rw [if_pos hk]
        exact h
      · rw [if_neg hk]
        simp only [List.nodup_append, List.nodup_cons, List.not_mem_nil, not_false_iff,
          List.nodup_nil, and_true, true_and]
        exact ⟨h, by simpa using hk⟩

theorem assocFind_of_mem_of_nodup {β : Type} {l : List (String × β)} {e : String × β}
    (he : e ∈ l) (hnd : (l.map (fun x => x.1)).Nodup) : assocFind l e.1 = some e.2 := by
  induction l with
  | nil => cases he
  | cons kv rest IH =>
    obtain ⟨k0, v0⟩ := kv
    obtain ⟨hk0, hrest⟩ := List.nodup_cons.mp hnd
    rcases List.mem_cons.mp he with he1 | he2
    · subst he1
      show (if k0 = k0 then some v0 else assocFind rest k0) = some v0
      rw [if_pos rfl]
    · have h1 : e.1 ∈ rest.map (fun x => x.1) := List.mem_map_of_mem _ he2
      have hne : k0 ≠ e.1 := fun hh => hk0 (hh ▸ h1)
      show (if k0 = e.1 then some v0 else assocFind rest e.1) = some e.2
      rw [if_neg hne]
      exact IH he2 hrest

theorem pairwise_filterMap_of_pairwise {β γ : Type} {R : γ → γ → Prop} {f : β → Option γ} :
    ∀ {l : List β},
      l.Pairwise (fun a b => ∀ x, f a = some x → ∀ y, f b = some y → R x y) →
      (l.filterMap f).Pairwise R := by
  intro l
  induction l with
  | nil =>
    intro _
    simp
  | cons a l IH =>
    intro h
    rcases List.pairwise_cons.mp h with ⟨ha, hl⟩
    cases hf : f a with
    | none =>
      rw [List.filterMap_cons_none hf]
      exact IH hl
    | some x =>
      rw [List.filterMap_cons_some hf]
      refine List.pairwise_cons.mpr ⟨?_, IH hl⟩
      intro y hy
      obtain ⟨b, hb, hfb⟩ := List.mem_filterMap.mp hy
      exact ha b hb x hf y hfb

/-- C8: aggregation produces at most one component per declared package
within a source-root kind; a component's name is its package's last dotted
segment with a `Test` suffix exactly on the test root; every file declaring
the component's package is aggregated into its source-file list; a name can
never equal itself with `Test` appended, so the main and test components of
one package never merge; and on the concrete billing example the map holds
exactly the components `billing` and `billingTest`, both of package
`com.acme.billing`, with both main files inside `billing`. -/
theorem C8_one_component_per_package :
    (∀ (fsE : String → Bool) (t : Bool) (files : List JFile),
      (aggregateSrc fsE t files).Pairwise (fun c1 c2 => c1.package ≠ c2.package)) ∧
    (∀ (fsE : String → Bool) (t : Bool) (files : List JFile) (c : Component),
      c ∈ aggregateSrc fsE t files →
      c.name = (if t then lastSegment c.package ++ "Test" else lastSegment c.package) ∧
      c.is_test = Json.bool t) ∧
    (∀ (fsE : String → Bool) (t : Bool) (files : List JFile) (c : Component) (f : JFile),
      c ∈ aggregateSrc fsE t files → f ∈ files →
      extractPackage f.2.2 = some c.package →
      ∃ l, c.source_files = Json.arr l ∧ Json.str (pathJoin f.1 f.2.1) ∈ l) ∧
    (∀ s : String, s ≠ s ++ "Test") ∧
    ((discoverComponentsMap fsTrue billMains billTests).map (fun e => e.1)
      = ["billing", "billingTest"] ∧
     (assocFind (discoverComponentsMap fsTrue billMains billTests) "billing")
      = some compBilling ∧
     (assocFind (discoverComponentsMap fsTrue billMains billTests) "billingTest").map
        (fun c => c.package) = some "com.acme.billing") := by
  refine ⟨?_, ?_, ?_, ?_, by decide, by decide, by decide⟩
  · intro fsE t files
    have hnd := groupFold_keys_nodup files [] (by simp)
    have hpw : (groupByPackage files).Pairwise (fun e1 e2 => e1.1 ≠ e2.1) :=
      List.pairwise_map.mp hnd
    refine pairwise_filterMap_of_pairwise (hpw.imp ?_)
    intro e1 e2 hne x hx y hy
    rw [(buildComponent_facts hx).1, (buildComponent_facts hy).1]
    exact hne
  · intro fsE t files c hc
    obtain ⟨g, hg, hbuild⟩ := List.mem_filterMap.mp hc
    obtain ⟨hpkg, hname, htest, -⟩ := buildComponent_facts hbuild
    exact ⟨by rw [hname, hpkg], htest⟩
  · intro fsE t files c f hc hf hp
    obtain ⟨g, hg, hbuild⟩ := List.mem_filterMap.mp hc
    obtain ⟨hpkg, -, -, hsf⟩ := buildComponent_facts hbuild
    refine ⟨(g.2.map (fun f2 => pathJoin f2.1 f2.2.1)).map Json.str, hsf, ?_⟩
    have hfg : f ∈ g.2 := by
      have hgf : assocFind (groupByPackage files) g.1 = some g.2 := by
        have hnd := groupFold_keys_nodup files [] (by simp)
        exact assocFind_of_mem_of_nodup hg hnd
      exact groupByPackage_complete files [] g.1 f hf (hpkg ▸ hp) g.2 hgf
    exact List.mem_map_of_mem _ (List.mem_map_of_mem _ hfg)
  · intro s h
    have hlen := congrArg String.length h
    rw [String.length_append] at hlen
    have h4 : "Test".length = 4 := rfl
    omega

theorem C8_witness :
    compBilling ∈ aggregateSrc fsTrue false billMains ∧
    compBilling.name = (if false then lastSegment compBilling.package ++ "Test"
      else lastSegment compBilling.package) ∧
    compBilling.is_test = Json.bool false :=
  ⟨by decide, C8_one_component_per_package.2.1 fsTrue false billMains compBilling (by decide)⟩

theorem assocFind_assocSet {β : Type} :
    ∀ (m : List (String × β)) (k : String) (v : β),
      assocFind (assocSet m k v) k = some v := by
  intro m k v
  induction m with
  | nil => simp [assocSet, assocFind]
  | cons kv rest IH =>
    obtain ⟨k0, v0⟩ := kv
    by_cases h : k0 = k
    · simp [assocSet, assocFind, h]
    · simp [assocSet, assocFind, h, IH]

/-- C10: in `discover_components`, components are stored under
`components[component.name] = component`, so when two distinct packages
derive the same component name under the same source-root kind the
later-constructed component silently overwrites the earlier one: inserting
a component last always leaves it as the map's entry for its name, and in
the concrete run over `package a.x;` and `package b.x;` main files both
packages aggregate to a component named `x`, yet the returned map holds
exactly the `b.x` component — the `a.x` component, its source files and its
dependencies are absent. -/
theorem C10_same_name_overwrite :
    (∀ (cs : List Component) (m : List (String × Component)) (c : Component),
      assocFind (insertComponents (cs ++ [c]) m) c.name = some c) ∧
    ((aggregateSrc fsTrue false [fileAx, fileBx]).map (fun c => c.package)
        = ["a.x", "b.x"] ∧
     (aggregateSrc fsTrue false [fileAx, fileBx]).map (fun c => c.name) = ["x", "x"] ∧
     discoverComponentsMap fsTrue [fileAx, fileBx] [] = [("x", compBx)] ∧
     compBx.package = "b.x" ∧
     ∀ e ∈ discoverComponentsMap fsTrue [fileAx, fileBx] [], e.2.package ≠ "a.x") := by
  constructor
  · intro cs m c
    show assocFind ((cs ++ [c]).foldl (fun m2 c2 => assocSet m2 c2.name c2) m) c.name
        = some c
    rw [List.foldl_append, List.foldl_cons, List.foldl_nil]
    exact assocFind_assocSet _ c.name c
  · exact ⟨by decide, by decide, by decide, by decide, by decide⟩

theorem C10_witness :
    assocFind (insertComponents ([compBilling] ++ [compBx]) []) compBx.name = some compBx ∧
    ("x", compBx) ∈ discoverComponentsMap fsTrue [fileAx, fileBx] [] ∧
    compBx.package ≠ "a.x" :=
  ⟨C10_same_name_overwrite.1 [compBilling] [] compBx, by decide,
   C10_same_name_overwrite.2.2.2.2.2 ("x", compBx) (by decide)⟩

/-- C5 counterexample: the parsed document `{}` — a structurally valid JSON
object that is missing BOTH top-level required keys `components` and
`edges` — does not raise a cache error; `load` returns the silent no-entry
result, because the `data.get('version') != '1.0'` gate returns `None`
before either required key is ever read. -/
theorem C5_counterexample :
    loadEntry fsTrue (Json.obj []) = LoadRes.miss ∧
    Json.lookup ([] : List (String × Json)) "components" = none ∧
    Json.lookup ([] : List (String × Json)) "edges" = none ∧
    LoadRes.miss ≠ LoadRes.err := by
  refine ⟨rfl, rfl, rfl, nofun⟩

/-- C5: `ComponentCache.load` failure semantics, as implemented.  A cache
file that fails to parse raises `CacheError`, and an absent file is a
miss.  On parsed data the version gate runs FIRST: any document that is
not a dict, or whose `version` is not exactly the string `'1.0'`, is a
silent miss even if its required keys are missing.  Only after the gate
does a missing `components` key — and, after the whole component loop
succeeds, a missing `edges` key — raise `CacheError`; a structurally
invalid component record, a non-iterable `components` value reached
through it, or an invalid edge record, all degrade to a miss.  A hit is
returned only with a fully reconstructed component map and graph — never a
partial one. -/
theorem C5_load_failure_semantics :
    (∀ (fsE : String → Bool) (store : List (String × Option Json)) (key : String),
      assocFind store key = some none → loadCache fsE store key = LoadRes.err) ∧
    (∀ (fsE : String → Bool) (store : List (String × Option Json)) (key : String),
      assocFind store key = none → loadCache fsE store key = LoadRes.miss) ∧
    (∀ (fsE : String → Bool) (kvs : List (String × Json)),
      Json.lookup kvs "version" ≠ some (Json.str "1.0") →
      loadEntry fsE (Json.obj kvs) = LoadRes.miss) ∧
    (∀ (fsE : String → Bool) (j : Json), (∀ kvs, j ≠ Json.obj kvs) →
      loadEntry fsE j = LoadRes.miss) ∧
    (∀ (fsE : String → Bool) (kvs : List (String × Json)),
      Json.lookup kvs "version" = some (Json.str "1.0") →
      Json.lookup kvs "components" = none →
      loadEntry fsE (Json.obj kvs) = LoadRes.err) ∧
    (∀ (fsE : String → Bool) (kvs : List (String × Json)) (cj : Json)
        (recs : List Json),
      Json.lookup kvs "version" = some (Json.str "1.0") →
      Json.lookup kvs "components" = some cj →
      iterableElems cj = some recs → buildAll fsE recs = none →
      loadEntry fsE (Json.obj kvs) = LoadRes.miss) ∧
    (∀ (fsE : String → Bool) (kvs : List (String × Json)) (cj : Json)
        (recs : List Json) (comps : List (String × Component)),
      Json.lookup kvs "version" = some (Json.str "1.0") →
      Json.lookup kvs "components" = some cj →
      iterableElems cj = some recs → buildAll fsE recs = some comps →
      Json.lookup kvs "edges" = none →
      loadEntry fsE (Json.obj kvs) = LoadRes.err) ∧
    (∀ (fsE : String → Bool) (kvs : List (String × Json)) (cj ej : Json)
        (recs es : List Json) (comps : List (String × Component)),
      Json.lookup kvs "version" = some (Json.str "1.0") →
      Json.lookup kvs "components" = some cj →
      iterableElems cj = some recs → buildAll fsE recs = some comps →
      Json.lookup kvs "edges" = some ej → iterableElems ej = some es →
      buildGraph es = none →
      loadEntry fsE (Json.obj kvs) = LoadRes.miss) ∧
    (∀ (fsE : String → Bool) (j : Json) (comps : List (String × Component))
        (g2 : DepGraph Json),
      loadEntry fsE j = LoadRes.hit comps g2 →
      ∃ kvs cj recs ej es, j = Json.obj kvs ∧
        Json.lookup kvs "version" = some (Json.str "1.0") ∧
        Json.lookup kvs "components" = some cj ∧ iterableElems cj = some recs ∧
        buildAll fsE recs = some comps ∧
        Json.lookup kvs "edges" = some ej ∧ iterableElems ej = some es ∧
        buildGraph es = some g2) := by
  refine ⟨?_, ?_, ?_, ?_, ?_, ?_, ?_, ?_, ?_⟩
  · intro fsE store key h
    unfold loadCache
    rw [h]
  · intro fsE store key h
    unfold loadCache
    rw [h]
  · intro fsE kvs h
    simp only [loadEntry]
    rw [if_neg h]
  · intro fsE j h
    cases j with
    | obj kvs => exact absurd rfl (h kvs)
    | null => rfl
    | bool b => rfl
    | num n => rfl
    | str s => rfl
    | arr xs => rfl
  · intro fsE kvs h1 h2
    simp only [loadEntry]
    rw [if_pos h1, h2]
  · intro fsE kvs cj recs h1 h2 h3 h4
    simp only [loadEntry]
    rw [if_pos h1]
    simp only [h2, h3, h4]
  · intro fsE kvs cj recs comps h1 h2 h3 h4 h5
    simp only [loadEntry]
    rw [if_pos h1]
    simp only [h2, h3, h4, h5]
  · intro fsE kvs cj ej recs es comps h1 h2 h3 h4 h5 h6 h7
    simp only [loadEntry]
    rw [if_pos h1]
    simp only [h2, h3, h4, h5, h6, h7]
  · intro fsE j comps g2 h
    cases j with
    | obj kvs =>
      simp only [loadEntry] at h
      by_cases hv : Json.lookup kvs "version" = some (Json.str "1.0")
      · rw [if_pos hv] at h
        cases hc : Json.lookup kvs "components" with
        | none => simp only [hc] at h; cases h
        | some cj =>
          simp only [hc] at h
          cases hi : iterableElems cj with
          | none => simp only [hi] at h; cases h
          | some recs =>
            simp only [hi] at h
            cases hb : buildAll fsE recs with
            | none => simp only [hb] at h; cases h
            | some comps1 =>
              simp only [hb] at h
              cases he : Json.lookup kvs "edges" with
              | none => simp only [he] at h; cases h
              | some ej =>
                simp only [he] at h
                cases hie : iterableElems ej with
                | none => simp only [hie] at h; cases h
                | some es =>
                  simp only [hie] at h
                  cases hg : buildGraph es with
                  | none => simp only [hg] at h; cases h
                  | some g1 =>
                    simp only [hg] at h
                    injection h with h1 h2
                    subst h1
                    subst h2
                    exact ⟨kvs, cj, recs, ej, es, rfl, hv, hc, hi, hb, he, hie, hg⟩
      · rw [if_neg hv] at h
        cases h
    | null => cases h
    | bool b => cases h
    | num n => cases h
    | str s => cases h
    | arr xs => cases h

/-- C5 witness: the failure semantics at concrete inputs — an unparsable
cache file raises the cache error, an absent one misses, and a document
with the right version but no `components` key raises the cache error. -/
theorem C5_witness :
    assocFind [("k", (none : Option Json))] "k" = some none ∧
    loadCache fsTrue [("k", (none : Option Json))] "k" = LoadRes.err ∧
    loadCache fsTrue [] "k" = LoadRes.miss ∧
    loadEntry fsTrue (Json.obj [("version", Json.str "1.0")]) = LoadRes.err :=
  ⟨by decide,
   C5_load_failure_semantics.1 fsTrue [("k", none)] "k" (by decide),
   C5_load_failure_semantics.2.1 fsTrue [] "k" (by decide),
   C5_load_failure_semantics.2.2.2.2.1 fsTrue [("version", Json.str "1.0")]
     (by decide) (by decide)⟩

/-! ### Decimal rendering and fingerprint-input lemmas (claim C6) -/

theorem decDigitsAux_zero (fuel : Nat) : decDigitsAux fuel 0 = [] := by
  cases fuel with
  | zero => rfl
  | succ f => rfl

theorem decDigit_val : ∀ d < 10, (decDigit d).toNat - 48 = d := by decide

theorem digitsVal_append_digit (l : List Char) (c : Char) :
    digitsVal (l ++ [c]) = digitsVal l * 10 + (c.toNat - 48) := by
  unfold digitsVal
  rw [List.foldl_append]
  rfl

theorem digitsVal_decDigitsAux :
    ∀ (fuel n : Nat), n ≤ fuel → digitsVal (decDigitsAux fuel n) = n := by
  intro fuel
  induction fuel with
  | zero =>
    intro n hn
    interval_cases n
    rfl
  | succ f IH =>
    intro n hn
    by_cases h0 : n = 0
    · subst h0
      rw [decDigitsAux_zero]
      rfl
    · have hstep : decDigitsAux (f + 1) n
          = if n = 0 then [] else decDigitsAux f (n / 10) ++ [decDigit (n % 10)] :=
        rfl
      rw [hstep, if_neg h0, digitsVal_append_digit]
      have hdivlt : n / 10 < n := Nat.div_lt_self (Nat.pos_of_ne_zero h0) (by omega)
      have hdiv : n / 10 ≤ f := by omega
      rw [IH (n / 10) hdiv, decDigit_val (n % 10) (Nat.mod_lt n (by omega))]
      have := Nat.div_add_mod n 10
      omega

theorem decRepr_injective : Function.Injective decRepr := by
  intro m n h
  have hdata := congrArg String.data h
  by_cases hm : m = 0 <;> by_cases hn : n = 0
  · omega
  · exfalso
    rw [decRepr, if_pos hm, decRepr, if_neg hn] at hdata
    have hv := congrArg digitsVal hdata
    have hm0 : digitsVal ("0").data = 0 := rfl
    rw [hm0, digitsVal_decDigitsAux n n (Nat.le_refl n)] at hv
    exact hn hv.symm
  · exfalso
    rw [decRepr, if_neg hm, decRepr, if_pos hn] at hdata
    have hv := congrArg digitsVal hdata
    have hn0 : digitsVal ("0").data = 0 := rfl
    rw [hn0, digitsVal_decDigitsAux m m (Nat.le_refl m)] at hv
    exact hm hv
  · rw [decRepr, if_neg hm, decRepr, if_neg hn] at hdata
    have hv := congrArg digitsVal hdata
    rw [digitsVal_decDigitsAux m m (Nat.le_refl m),
      digitsVal_decDigitsAux n n (Nat.le_refl n)] at hv
    exact hv

theorem str_append_cancel_left {a b c : String} (h : a ++ b = a ++ c) : b = c := by
  apply String.ext
  have hd := congrArg String.data h
  rw [String.data_append a b, String.data_append a c] at hd
  exact List.append_cancel_left hd

theorem str_append_cancel_right {a b c : String} (h : a ++ c = b ++ c) : a = b := by
  apply String.ext
  have hd := congrArg String.data h
  rw [String.data_append a c, String.data_append b c] at hd
  exact List.append_cancel_right hd

theorem concatStr_foldl :
    ∀ (l : List String) (acc : String),
      l.foldl (fun a s => a ++ s) acc = acc ++ concatStr l := by
  intro l
  induction l with
  | nil =>
    intro acc
    simp [concatStr]
  | cons s rest IH =>
    intro acc
    rw [List.foldl_cons, IH]
    have hc : concatStr (s :: rest) = s ++ concatStr rest := by
      show List.foldl (fun a s2 => a ++ s2) ("" ++ s) rest = _
      rw [IH ("" ++ s)]
      simp
    rw [hc, String.append_assoc]

theorem concatStr_cons (s : String) (l : List String) :
    concatStr (s :: l) = s ++ concatStr l := by
  show List.foldl (fun a s2 => a ++ s2) ("" ++ s) l = _
  rw [concatStr_foldl]
  simp

theorem concatStr_append :
    ∀ (a b : List String), concatStr (a ++ b) = concatStr a ++ concatStr b := by
  intro a
  induction a with
  | nil =>
    intro b
    simp [concatStr]
  | cons s rest IH =>
    intro b
    rw [List.cons_append, concatStr_cons, concatStr_cons, IH, String.append_assoc]

theorem keyInput_inner_fold (mtime : String → Nat) (dir : String) :
    ∀ (fs : List String) (acc : String),
      fs.foldl
        (fun acc2 f =>
          if pyEndswith f ".java" then
            acc2 ++ (pathJoin dir f ++ ":" ++ decRepr (mtime (pathJoin dir f)))
          else acc2)
        acc
      = acc ++ concatStr (((fs.filter (fun f => pyEndswith f ".java")).map
          (fun f => pathJoin dir f)).map (mtChunk mtime)) := by
  intro fs
  induction fs with
  | nil =>
    intro acc
    simp [concatStr]
  | cons f rest IH =>
    intro acc
    rw [List.foldl_cons]
    by_cases hf : pyEndswith f ".java"
    · rw [if_pos hf, IH]
      have hfil : (f :: rest).filter (fun f2 => pyEndswith f2 ".java")
          = f :: rest.filter (fun f2 => pyEndswith f2 ".java") := by
        simp [List.filter_cons, hf]
      rw [hfil, List.map_cons, List.map_cons, concatStr_cons, String.append_assoc]
      rfl
    · rw [if_neg hf, IH]
      have hfil : (f :: rest).filter (fun f2 => pyEndswith f2 ".java")
          = rest.filter (fun f2 => pyEndswith f2 ".java") := by
        simp [List.filter_cons, hf]
      rw [hfil]

theorem javaPaths_foldl_acc :
    ∀ (walk : List (String × List String)) (acc : List String),
      walk.foldl
        (fun a d =>
          a ++ ((sortedNames d.2).filter (fun f => pyEndswith f ".java")).map
            (fun f => pathJoin d.1 f))
        acc
      = acc ++ javaPaths walk := by
  intro walk
  induction walk with
  | nil =>
    intro acc
    simp [javaPaths]
  | cons d rest IH =>
    intro acc
    rw [List.foldl_cons, IH]
    have hjp : javaPaths (d :: rest)
        = ((sortedNames d.2).filter (fun f => pyEndswith f ".java")).map
            (fun f => pathJoin d.1 f) ++ javaPaths rest := by
      show List.foldl _ ([] ++ _) rest = _
      rw [IH]
      simp
    rw [hjp, List.append_assoc]

theorem keyInput_fold_acc (mtime : String → Nat) :
    ∀ (walk : List (String × List String)) (acc : String),
      walk.foldl
        (fun acc2 d =>
          (sortedNames d.2).foldl
            (fun acc3 f =>
              if pyEndswith f ".java" then
                acc3 ++ (pathJoin d.1 f ++ ":" ++ decRepr (mtime (pathJoin d.1 f)))
              else acc3)
            acc2)
        acc
      = acc ++ concatStr ((javaPaths walk).map (mtChunk mtime)) := by
  intro walk
  induction walk with
  | nil =>
    intro acc
    simp [javaPaths, concatStr]
  | cons d rest IH =>
    intro acc
    simp only [List.foldl_cons]
    rw [keyInput_inner_fold mtime d.1 (sortedNames d.2) acc, IH]
    have hjp : javaPaths (d :: rest)
        = ((sortedNames d.2).filter (fun f => pyEndswith f ".java")).map
            (fun f => pathJoin d.1 f) ++ javaPaths rest := by
      show List.foldl _ ([] ++ _) rest = _
      rw [javaPaths_foldl_acc]
      simp
    rw [hjp, List.map_append, concatStr_append, String.append_assoc]

theorem keyInput_eq_chunks :
    ∀ (walk : List (String × List String)) (repoPath : String)
      (mtime : String → Nat),
      keyInput repoPath walk mtime
        = repoPath ++ concatStr ((javaPaths walk).map (mtChunk mtime)) := by
  intro walk repoPath mtime
  exact keyInput_fold_acc mtime walk repoPath

theorem keyInput_mtime_ne (repoPath : String) (walk : List (String × List String))
    (mtime mtime2 : String → Nat) (pre suf : List String) (p : String)
    (hsplit : javaPaths walk = pre ++ p :: suf)
    (hpre : ∀ q ∈ pre, mtime q = mtime2 q)
    (hsuf : ∀ q ∈ suf, mtime q = mtime2 q)
    (hp : mtime p ≠ mtime2 p) :
    keyInput repoPath walk mtime ≠ keyInput repoPath walk mtime2 := by
  intro h
  rw [keyInput_eq_chunks, keyInput_eq_chunks, hsplit] at h
  have hmapre : pre.map (mtChunk mtime) = pre.map (mtChunk mtime2) := by
    apply List.map_congr_left
    intro q hq
    unfold mtChunk
    rw [hpre q hq]
  have hmasuf : suf.map (mtChunk mtime) = suf.map (mtChunk mtime2) := by
    apply List.map_congr_left
    intro q hq
    unfold mtChunk
    rw [hsuf q hq]
  rw [List.map_append, List.map_cons, List.map_append, List.map_cons,
    concatStr_append, concatStr_cons, concatStr_append, concatStr_cons,
    hmapre, hmasuf] at h
  have h2 := str_append_cancel_left h
  have h3 := str_append_cancel_left h2
  have h4 := str_append_cancel_right h3
  unfold mtChunk at h4
  have h5 := str_append_cancel_left h4
  exact hp (decRepr_injective h5)

/-- C6: the cache fingerprint is the digest of the root path string
concatenated with, for every `.java` file under the root in walk order
with file names sorted per directory, the `f"{path}:{mtime}"` chunk; and
— assuming the digest is collision-free (injective) — changing the
modification time of any one source file anywhere in the tree changes the
fingerprint, so the next load for that root finds no entry under the new
key in a store holding only the saved entry and reports a miss. -/
theorem C6_fingerprint_invalidation :
    (∀ (hash : String → String) (repoPath : String)
        (walk : List (String × List String)) (mtime : String → Nat),
      cacheKey hash repoPath walk mtime
        = hash (repoPath ++ concatStr ((javaPaths walk).map (mtChunk mtime)))) ∧
    (∀ (hash : String → String), Function.Injective hash →
      ∀ (repoPath : String) (walk : List (String × List String))
        (mtime mtime2 : String → Nat) (pre suf : List String) (p : String),
        javaPaths walk = pre ++ p :: suf →
        (∀ q ∈ pre, mtime q = mtime2 q) → (∀ q ∈ suf, mtime q = mtime2 q) →
        mtime p ≠ mtime2 p →
        cacheKey hash repoPath walk mtime2 ≠ cacheKey hash repoPath walk mtime ∧
        ∀ (fsE : String → Bool) (doc : Option Json),
          loadCache fsE [(cacheKey hash repoPath walk mtime, doc)]
            (cacheKey hash repoPath walk mtime2) = LoadRes.miss) := by
  constructor
  · intro hash repoPath walk mtime
    unfold cacheKey
    rw [keyInput_eq_chunks]
  · intro hash hinj repoPath walk mtime mtime2 pre suf p hsplit hpre hsuf hp
    have hne : cacheKey hash repoPath walk mtime2 ≠ cacheKey hash repoPath walk mtime := by
      intro he
      exact keyInput_mtime_ne repoPath walk mtime mtime2 pre suf p hsplit hpre hsuf hp
        (hinj he).symm
    refine ⟨hne, ?_⟩
    intro fsE doc
    unfold loadCache
    have hfind : assocFind [(cacheKey hash repoPath walk mtime, doc)]
        (cacheKey hash repoPath walk mtime2) = none := by
      unfold assocFind
      rw [if_neg (Ne.symm hne)]
      rfl
    rw [hfind]

/-- C6 witness: with the identity digest, the walk `r/A.java` and the
mtime bumped from 0 to 1, the fingerprint changes and the load after the
save misses. -/
theorem C6_witness :
    cacheKey id "r" [("r", ["A.java"])] (fun _ => 1)
      ≠ cacheKey id "r" [("r", ["A.java"])] (fun _ => 0) ∧
    loadCache fsTrue
      [(cacheKey id "r" [("r", ["A.java"])] (fun _ => 0), some Json.null)]
      (cacheKey id "r" [("r", ["A.java"])] (fun _ => 1)) = LoadRes.miss :=
  have h := C6_fingerprint_invalidation.2 id (fun a b hab => hab) "r"
    [("r", ["A.java"])] (fun _ => 0) (fun _ => 1) [] [] "r/A.java" rfl
    (fun q hq => nomatch hq) (fun q hq => nomatch hq) (by decide)
  ⟨h.1, h.2 fsTrue (some Json.null)⟩

/-! ### Cache round-trip lemmas (claim C2) -/

theorem foldl_setAdd_nodup :
    ∀ (xs acc : List α), (acc ++ xs).Nodup → xs.foldl setAdd acc = acc ++ xs := by
  intro xs
  induction xs with
  | nil =>
    intro acc h
    simp
  | cons x rest IH =>
    intro acc h
    rw [List.foldl_cons]
    have hx : x ∉ acc := by
      intro hmem
      exact (List.disjoint_of_nodup_append h) hmem (List.mem_cons_self ..)
    have hadd : setAdd acc x = acc ++ [x] := by
      unfold setAdd
      rw [if_neg hx]
    rw [hadd, IH (acc ++ [x]) (by simpa using h)]
    simp

theorem assocSet_fresh {β : Type} :
    ∀ (l : List (String × β)) (k : String) (v : β),
      k ∉ l.map (fun e => e.1) → assocSet l k v = l ++ [(k, v)] := by
  intro l
  induction l with
  | nil =>
    intro k v h
    rfl
  | cons kv rest IH =>
    intro k v h
    obtain ⟨k0, v0⟩ := kv
    have h0 : k0 ≠ k := by
      intro he
      exact h (by simp [he])
    have hr : k ∉ rest.map (fun e => e.1) := by
      intro hmem
      exact h (by simp [hmem])
    show (if k0 = k then (k0, v) :: rest else (k0, v0) :: assocSet rest k v) = _
    rw [if_neg h0, IH k v hr]
    rfl

theorem E_addNode {β : Type} [DecidableEq β] (g : DepGraph β) (c x y : β) :
    (g.addNode c).E x y ↔ g.E x y := by
  unfold DepGraph.addNode
  by_cases hc : c ∈ dictKeys g.fwd
  · rw [if_pos hc]
  · rw [if_neg hc]
    show y ∈ dictGet (g.fwd ++ [(c, [])]) x ↔ y ∈ dictGet g.fwd x
    rw [dictGet_append_single [] hc x]
    by_cases hx : x = c
    · rw [if_pos hx, hx, dictGet_eq_nil_of_not_mem hc]
    · rw [if_neg hx]

theorem E_addEdge {β : Type} [DecidableEq β] (g : DepGraph β) (a b x y : β) :
    (g.addEdge a b).E x y ↔ g.E x y ∨ (x = a ∧ y = b) := by
  show y ∈ dictGet (dictAdd g.fwd a b) x ↔ y ∈ dictGet g.fwd x ∨ (x = a ∧ y = b)
  rw [dictGet_dictAdd]
  by_cases hx : x = a
  · rw [if_pos hx, mem_setAdd, hx]
    simp
  · rw [if_neg hx]
    simp [hx]

theorem E_empty {β : Type} [DecidableEq β] (x y : β) :
    ¬ (DepGraph.empty : DepGraph β).E x y := by
  intro h
  exact (List.not_mem_nil y) h

theorem mem_savedEdges_go (g : DepGraph String) (a b : String) :
    ∀ (ks : List String),
      (a, b) ∈ ks.foldr
          (fun f acc => (g.getDependencies f).map (fun t => (f, t)) ++ acc) []
        ↔ a ∈ ks ∧ g.E a b := by
  intro ks
  induction ks with
  | nil => simp
  | cons k rest IH =>
    rw [List.foldr_cons, List.mem_append, IH]
    constructor
    · rintro (hm | ⟨ha, he⟩)
      · obtain ⟨t, ht, hpair⟩ := List.mem_map.mp hm
        injection hpair with h1 h2
        subst h1
        subst h2
        exact ⟨List.mem_cons_self .., ht⟩
      · exact ⟨List.mem_cons_of_mem _ ha, he⟩
    · rintro ⟨ha, he⟩
      rcases List.mem_cons.mp ha with rfl | ha2
      · exact Or.inl (List.mem_map.mpr ⟨b, he, rfl⟩)
      · exact Or.inr ⟨ha2, he⟩

theorem mem_savedEdges (comps : List (String × Component)) (g : DepGraph String)
    (a b : String) :
    (a, b) ∈ savedEdges comps g ↔ a ∈ comps.map (fun e => e.1) ∧ g.E a b := by
  unfold savedEdges
  exact mem_savedEdges_go g a b (comps.map (fun e => e.1))

theorem buildCompFromRecord_serialize (fsE : String → Bool) (c : Component)
    (h1 : c.name ≠ "") (h2 : c.package ≠ "") (h3 : fsE c.path = true)
    (h4 : c.dependencies.Nodup)
    (h5 : ∀ d ∈ c.dependencies, jsonHashable d = true) :
    buildCompFromRecord fsE (serializeComp c) = some c := by
  have hstep : buildCompFromRecord fsE (serializeComp c)
      = if c.name ≠ "" ∧ c.package ≠ "" ∧ fsE c.path then
          match setOf c.dependencies with
          | some deps =>
            some ⟨c.name, c.package, c.path, c.source_files, deps,
              c.is_test, c.metadata⟩
          | none => none
        else none := rfl
  rw [hstep, if_pos ⟨h1, h2, h3⟩]
  have hall : c.dependencies.all jsonHashable = true := List.all_eq_true.mpr h5
  have hset : setOf c.dependencies = some c.dependencies := by
    unfold setOf
    rw [if_pos hall, foldl_setAdd_nodup c.dependencies [] (by simpa using h4)]
    rfl
  rw [hset]

theorem buildAll_serialize_go (fsE : String → Bool) :
    ∀ (cs m : List (String × Component)),
      (∀ e ∈ cs, e.2.name ≠ "" ∧ e.2.package ≠ "" ∧ fsE e.2.path = true ∧
        e.2.dependencies.Nodup ∧ ∀ d ∈ e.2.dependencies, jsonHashable d = true) →
      (∀ e ∈ cs, e.1 = e.2.name) →
      (m.map (fun e => e.1) ++ cs.map (fun e => e.1)).Nodup →
      List.foldlM
        (fun m2 j => (buildCompFromRecord fsE j).map (fun c => assocSet m2 c.name c))
        m (cs.map (fun e => serializeComp e.2))
      = some (m ++ cs) := by
  intro cs
  induction cs with
  | nil =>
    intro m hval hkeys hnd
    simp
  | cons e rest IH =>
    intro m hval hkeys hnd
    obtain ⟨hn1, hn2, hn3, hn4, hn5⟩ := hval e (List.mem_cons_self ..)
    have hrec := buildCompFromRecord_serialize fsE e.2 hn1 hn2 hn3 hn4 hn5
    rw [List.map_cons, List.foldlM_cons, hrec]
    have hkey : e.1 = e.2.name := hkeys e (List.mem_cons_self ..)
    have hfresh : e.2.name ∉ m.map (fun e2 => e2.1) := by
      rw [← hkey]
      intro hmem
      exact (List.disjoint_of_nodup_append hnd) hmem (by simp)
    have hset : assocSet m e.2.name e.2 = m ++ [e] := by
      rw [assocSet_fresh m e.2.name e.2 hfresh, ← hkey]
    have hbind : (some (assocSet m e.2.name e.2) : Option (List (String × Component)))
        >>= (fun m2 => List.foldlM
          (fun m3 j => (buildCompFromRecord fsE j).map (fun c => assocSet m3 c.name c))
          m2 (rest.map (fun e2 => serializeComp e2.2)))
        = List.foldlM
          (fun m3 j => (buildCompFromRecord fsE j).map (fun c => assocSet m3 c.name c))
          (m ++ [e]) (rest.map (fun e2 => serializeComp e2.2)) := by
      rw [hset]
      rfl
    rw [Option.map_eq_bind]
    show (some (assocSet m e.2.name e.2)).bind _ = _
    rw [show ((some (assocSet m e.2.name e.2)).bind (fun m2 => List.foldlM
          (fun m3 j => (buildCompFromRecord fsE j).map (fun c => assocSet m3 c.name c))
          m2 (rest.map (fun e2 => serializeComp e2.2))))
        = List.foldlM
          (fun m3 j => (buildCompFromRecord fsE j).map (fun c => assocSet m3 c.name c))
          (assocSet m e.2.name e.2) (rest.map (fun e2 => serializeComp e2.2)) from rfl]
    rw [hset, IH (m ++ [e]) (fun e2 he2 => hval e2 (List.mem_cons_of_mem _ he2))
      (fun e2 he2 => hkeys e2 (List.mem_cons_of_mem _ he2)) (by simpa using hnd)]
    simp

theorem buildAll_serialize (fsE : String → Bool)
    (comps : List (String × Component))
    (hval : ∀ e ∈ comps, e.2.name ≠ "" ∧ e.2.package ≠ "" ∧ fsE e.2.path = true ∧
      e.2.dependencies.Nodup ∧ ∀ d ∈ e.2.dependencies, jsonHashable d = true)
    (hkeys : ∀ e ∈ comps, e.1 = e.2.name)
    (hnd : (comps.map (fun e => e.1)).Nodup) :
    buildAll fsE (comps.map (fun e => serializeComp e.2)) = some comps := by
  unfold buildAll
  have h := buildAll_serialize_go fsE comps [] hval hkeys (by simpa using hnd)
  simpa using h

theorem buildGraph_pairs_go :
    ∀ (ps : List (String × String)) (g0 : DepGraph Json),
      ∃ g2,
        List.foldlM
          (fun g e =>
            match unpack2 e with
            | some (f, t) =>
              if jsonHashable f && jsonHashable t then
                some (((g.addNode f).addNode t).addEdge f t)
              else none
            | none => none)
          g0 (ps.map (fun ab => Json.arr [Json.str ab.1, Json.str ab.2]))
        = some g2 ∧
        ∀ x y, g2.E x y ↔
          g0.E x y ∨ ∃ ab ∈ ps, x = Json.str ab.1 ∧ y = Json.str ab.2 := by
  intro ps
  induction ps with
  | nil =>
    intro g0
    refine ⟨g0, by simp, ?_⟩
    intro x y
    simp
  | cons ab rest IH =>
    intro g0
    obtain ⟨a, b⟩ := ab
    obtain ⟨g2, heq, hch⟩ :=
      IH (((g0.addNode (Json.str a)).addNode (Json.str b)).addEdge
        (Json.str a) (Json.str b))
    refine ⟨g2, ?_, ?_⟩
    · rw [List.map_cons, List.foldlM_cons]
      exact heq
    · intro x y
      rw [hch x y, E_addEdge, E_addNode, E_addNode]
      constructor
      · rintro (((hg | ⟨hx, hy⟩) | ⟨ab2, hab2, hx, hy⟩))
        · exact Or.inl hg
        · exact Or.inr ⟨(a, b), List.mem_cons_self .., hx, hy⟩
        · exact Or.inr ⟨ab2, List.mem_cons_of_mem _ hab2, hx, hy⟩
      · rintro (hg | ⟨ab2, hab2, hx, hy⟩)
        · exact Or.inl (Or.inl hg)
        · rcases List.mem_cons.mp hab2 with rfl | hab3
          · exact Or.inl (Or.inr ⟨hx, hy⟩)
          · exact Or.inr ⟨ab2, hab3, hx, hy⟩

theorem buildGraph_pairs (ps : List (String × String)) :
    ∃ g2,
      buildGraph (ps.map (fun ab => Json.arr [Json.str ab.1, Json.str ab.2]))
        = some g2 ∧
      ∀ x y, g2.E x y ↔ ∃ ab ∈ ps, x = Json.str ab.1 ∧ y = Json.str ab.2 := by
  obtain ⟨g2, heq, hch⟩ := buildGraph_pairs_go ps DepGraph.empty
  refine ⟨g2, heq, ?_⟩
  intro x y
  rw [hch x y]
  constructor
  · rintro (hg | h)
    · exact absurd hg (E_empty x y)
    · exact h
  · exact Or.inr

/-- C2 counterexample: save's edge comprehension iterates only
`for from_comp in components`, so with an empty component map and a graph
holding the edge a → b, `save` writes an empty edge list and the immediate
`load` returns a hit whose graph has no edges at all — the edge set is not
equal (even ignoring order) to the one that was saved. -/
theorem C2_counterexample :
    gSaveOnly.E "a" "b" ∧
    loadEntry fsTrue (saveJson "t" [] gSaveOnly)
      = LoadRes.hit [] DepGraph.empty ∧
    ¬ (DepGraph.empty : DepGraph Json).E (Json.str "a") (Json.str "b") := by
  refine ⟨by decide, by rfl, by decide⟩

/-- C2: the cache round-trip that actually holds.  When every key of the
component map is its component's name, the keys are distinct, and every
component is valid and serializable (non-empty name and package, existing
path, duplicate-free hashable dependency set), `save` followed immediately
by `load` returns a hit with exactly the saved component map, and a graph
whose edges are exactly the saved edge list — the pairs (f, t) with f a
component KEY and t a recorded dependency of f.  Edges whose source is not
a key of the map are silently dropped; when every edge source is a key,
the loaded edge set equals the saved graph's edge set (on string nodes). -/
theorem C2_cache_roundtrip (fsE : String → Bool) (ts : String)
    (comps : List (String × Component)) (g : DepGraph String)
    (hkeys : ∀ e ∈ comps, e.1 = e.2.name)
    (hnodup : (comps.map (fun e => e.1)).Nodup)
    (hval : ∀ e ∈ comps, e.2.name ≠ "" ∧ e.2.package ≠ "" ∧ fsE e.2.path = true ∧
      e.2.dependencies.Nodup ∧ ∀ d ∈ e.2.dependencies, jsonHashable d = true) :
    ∃ g2, loadEntry fsE (saveJson ts comps g) = LoadRes.hit comps g2 ∧
      (∀ x y, g2.E x y ↔
        ∃ ab ∈ savedEdges comps g, x = Json.str ab.1 ∧ y = Json.str ab.2) ∧
      (∀ a b, (a, b) ∈ savedEdges comps g ↔
        a ∈ comps.map (fun e => e.1) ∧ g.E a b) ∧
      ((∀ a b, g.E a b → a ∈ comps.map (fun e => e.1)) →
        ∀ a b, g2.E (Json.str a) (Json.str b) ↔ g.E a b) := by
  have hload : loadEntry fsE (saveJson ts comps g)
      = (match buildAll fsE (comps.map (fun e => serializeComp e.2)) with
        | none => LoadRes.miss
        | some comps2 =>
          match buildGraph ((savedEdges comps g).map
              (fun ab => Json.arr [Json.str ab.1, Json.str ab.2])) with
          | none => LoadRes.miss
          | some g2 => LoadRes.hit comps2 g2) := rfl
  obtain ⟨g2, hbg, hch⟩ := buildGraph_pairs (savedEdges comps g)
  refine ⟨g2, ?_, ?_, ?_, ?_⟩
  · rw [hload]
    simp only [buildAll_serialize fsE comps hval hkeys hnodup, hbg]
  · exact hch
  · exact mem_savedEdges comps g
  · intro hsrc a b
    rw [hch (Json.str a) (Json.str b)]
    constructor
    · rintro ⟨ab, hab, hx, hy⟩
      injection hx with hx2
      injection hy with hy2
      have he := ((mem_savedEdges comps g ab.1 ab.2).mp hab).2
      rw [hx2, hy2]
      exact he
    · intro he
      exact ⟨(a, b), (mem_savedEdges comps g a b).mpr ⟨hsrc a b he, he⟩, rfl, rfl⟩

/-- C2 witness: the round-trip at a concrete one-component map with a
self-edge graph. -/
theorem C2_witness :
    (∀ e ∈ [("core", compShippingCore)], e.1 = e.2.name) ∧
    (∃ g2, loadEntry fsTrue (saveJson "t" [("core", compShippingCore)] gCore)
        = LoadRes.hit [("core", compShippingCore)] g2 ∧
      (∀ x y, g2.E x y ↔
        ∃ ab ∈ savedEdges [("core", compShippingCore)] gCore,
          x = Json.str ab.1 ∧ y = Json.str ab.2) ∧
      (∀ a b, (a, b) ∈ savedEdges [("core", compShippingCore)] gCore ↔
        a ∈ [("core", compShippingCore)].map (fun e => e.1) ∧ gCore.E a b) ∧
      ((∀ a b, gCore.E a b →
          a ∈ [("core", compShippingCore)].map (fun e => e.1)) →
        ∀ a b, g2.E (Json.str a) (Json.str b) ↔ gCore.E a b)) :=
  ⟨by decide,
   C2_cache_roundtrip fsTrue "t" [("core", compShippingCore)] gCore
     (by decide) (by decide) (by decide)⟩

end CompDisc
